import Mathlib

/-!
# lse: directory listing (`ls/ls.go`)

A shallow embedding of `ls/ls.go`: the hidden-path test, the one-level
listing with its time-ordering and directories-first steps, the recursive
walk, the structure printer and the dispatcher `ListDir`.

Go strings are byte sequences, so they are modelled as lists of bytes.
The operating system is an explicit `World` value that answers `os.Stat`,
`os.ReadDir`, `os.Lstat` and the directory tree seen by `filepath.Walk`.
A Go `error` result is an `Outcome`; an index out of range is `Outcome.panic`.
-/

namespace Lse

/-! ## Go strings -/

/-- Go string: an immutable sequence of bytes. -/
abbrev GoString := List UInt8

/-- Bytes (UTF-8) of a string literal. -/
def str (s : String) : GoString := s.data.flatMap String.utf8EncodeChar

/-- Go `a < b` on strings: byte-wise lexicographic, a proper initial segment is smaller. -/
def strLess : GoString → GoString → Bool
  | [], [] => false
  | [], _ :: _ => true
  | _ :: _, [] => false
  | a :: as, b :: bs => if a < b then true else if b < a then false else strLess as bs

/-- Go `strings.TrimSuffix(s, "/")`: drops one trailing slash when there is one. -/
def trimSuffixSlash (s : GoString) : GoString :=
  if s.getLast? = some 47 then s.dropLast else s

/-! ## Errors and results -/

/-- Go `error` values that can reach this package: the two sentinels of
`path/filepath` and the errors reported by the operating system. -/
inductive Error where
  | SkipDir
  | SkipAll
  | errno (code : Nat)
deriving DecidableEq, Repr

/-- Result of a Go call that returns `(value, error)` or only `error`, or that panics. -/
inductive Outcome (α : Type) where
  | ok (a : α)
  | error (e : Error)
  | panic
deriving DecidableEq, Repr

/-! ## `time.Time` and `Time.String` -/

/-- Time zone: abbreviation and offset in seconds east of UTC. -/
structure Zone where
  name : GoString
  offset : Int
deriving DecidableEq, Repr

/-- Go `time.Location`: the zone in effect before the first transition and the
transitions `(unix second, zone)` in ascending order. -/
structure Location where
  initial : Zone
  tx : List (Int × Zone)
deriving DecidableEq, Repr

/-- Zone in effect at a unix second: the one of the last transition not after it. -/
def Location.lookup (loc : Location) (sec : Int) : Zone :=
  loc.tx.foldl (fun z t => if t.1 ≤ sec then t.2 else z) loc.initial

/-- Go `time.Time` without monotonic reading (as `os` builds file times):
an instant as unix seconds and nanoseconds, and the location used to render it. -/
structure Time where
  sec : Int
  nsec : Nat
  loc : Location
deriving DecidableEq, Repr

/-- Go `t.Before(u)`: the instant of `t` is earlier than the instant of `u`. -/
def Time.Before (t u : Time) : Prop :=
  t.sec < u.sec ∨ (t.sec = u.sec ∧ t.nsec < u.nsec)

instance (t u : Time) : Decidable (t.Before u) := by
  unfold Time.Before; infer_instance

/-- ASCII digit of a number below ten. -/
def digit (n : Nat) : UInt8 := UInt8.ofNat (48 + n % 10)

/-- Decimal digits of `n`, most significant first (`fuel` bounds the number of digits). -/
def natDigits : Nat → Nat → GoString
  | 0, n => [digit n]
  | fuel + 1, n => if n < 10 then [digit n] else natDigits fuel (n / 10) ++ [digit n]

/-- Go `appendInt(b, x, width)`: sign, then the digits padded with zeros to `width`. -/
def appendInt (x : Int) (width : Nat) : GoString :=
  let ds := natDigits x.natAbs x.natAbs
  (if x < 0 then [45] else []) ++ List.replicate (width - ds.length) 48 ++ ds

/-- Drops the trailing bytes equal to ASCII zero. -/
def trimZeros (b : GoString) : GoString :=
  (b.reverse.dropWhile (fun c => c == 48)).reverse

/-- Go `appendNano` for the layout element `.999999999`: nothing when the
nanoseconds are zero, else a period and nine digits without trailing zeros. -/
def appendNano (nanosec : Nat) : GoString :=
  if nanosec = 0 then [] else 46 :: trimZeros (appendInt nanosec 9)

/-- Civil date `(year, month, day)` of a day number counted from 1970-01-01
in the proleptic Gregorian calendar. -/
def civilFromDays (days : Int) : Int × Nat × Nat :=
  let z := days + 719468
  let era := z / 146097
  let doe := (z % 146097).toNat
  let yoe := (doe - doe / 1460 + doe / 36524 - doe / 146096) / 365
  let doy := doe - (365 * yoe + yoe / 4 - yoe / 100)
  let mp := (5 * doy + 2) / 153
  let d := doy - (153 * mp + 2) / 5 + 1
  let m := if mp < 10 then mp + 3 else mp - 9
  (((yoe : Int) + era * 400) + (if m ≤ 2 then 1 else 0), m, d)

/-- Go `Format` of a zone offset for the layout element `-0700`: the offset in
whole minutes (Go integer division truncates), its sign, hours and minutes. -/
def appendOffset (offset : Int) : GoString :=
  let zone := Int.tdiv offset 60
  (if zone < 0 then [45] else [43])
    ++ appendInt (zone.natAbs / 60 : Nat) 2 ++ appendInt (zone.natAbs % 60 : Nat) 2

/-- Go `t.String()` for a time without monotonic reading:
`t.Format("2006-01-02 15:04:05.999999999 -0700 MST")`. -/
def Time.String (t : Time) : GoString :=
  let z := t.loc.lookup t.sec
  let loc := t.sec + z.offset
  let ymd := civilFromDays (loc / 86400)
  let sod := (loc % 86400).toNat
  appendInt ymd.1 4 ++ [45] ++ appendInt (ymd.2.1 : Nat) 2 ++ [45] ++ appendInt (ymd.2.2 : Nat) 2
    ++ [32] ++ appendInt (sod / 3600 : Nat) 2 ++ [58] ++ appendInt (sod / 60 % 60 : Nat) 2
    ++ [58] ++ appendInt (sod % 60 : Nat) 2 ++ appendNano t.nsec
    ++ [32] ++ appendOffset z.offset
    ++ [32] ++ (if z.name = [] then appendOffset z.offset else z.name)

/-! ## File metadata and the data model of `ls.go` -/

/-- Go `fs.FileInfo` as this package reads it: `Name`, `Size`, `Mode`, `ModTime`, `IsDir`. -/
structure FileInfo where
  name : GoString
  size : Int
  mode : Nat
  modTime : Time
  isDir : Bool
deriving DecidableEq, Repr

/-- Go `fs.DirEntry` as returned by `os.ReadDir`: `Name()` and the result of `Info()`. -/
structure DirEntry where
  name : GoString
  info : Except Error FileInfo

/-- Source constant `dotCharacter`. -/
def dotCharacter : UInt8 := 46

/-- Source variable `dotFiles`. -/
def dotFiles : List GoString := [str ".", str ".."]

/-- Source type `Flags`. -/
structure Flags where
  A : Bool
  D : Bool
  G : Bool
  L : Bool
  Q : Bool
  R : Bool
  T : Bool
deriving DecidableEq, Repr

/-- Source type `LS`, without the writers and the palette: what is written to
`StdOut` is returned by the functions below. -/
structure LS extends Flags where
  Dir : GoString
deriving DecidableEq, Repr

/-- Source type `Dir`. -/
structure Dir where
  Path : GoString
  Info : FileInfo
deriving DecidableEq, Repr

/-! ## `path/filepath` on Unix -/

/-- Elements of a path between slashes (empty elements included). -/
def splitSlash : GoString → List GoString
  | [] => [[]]
  | c :: cs =>
    if c = 47 then [] :: splitSlash cs
    else
      match splitSlash cs with
      | [] => [[c]]
      | x :: xs => (c :: x) :: xs

/-- One element of `filepath.Clean`; `out` is the cleaned path so far, last element first. -/
def cleanStep (rooted : Bool) (out : List GoString) (elem : GoString) : List GoString :=
  if elem = [] ∨ elem = [46] then out
  else if elem = [46, 46] then
    match out with
    | [] => if rooted then [] else [[46, 46]]
    | top :: rest => if top = [46, 46] then [46, 46] :: out else rest
  else elem :: out

/-- Go `filepath.Clean` with separator `/`. -/
def Clean (path : GoString) : GoString :=
  if path = [] then [46]
  else
    let rooted := path.head? = some 47
    let out := (splitSlash path).foldl (cleanStep rooted) []
    let body := List.intercalate [47] out.reverse
    if rooted then 47 :: body else if body = [] then [46] else body

/-- Go `filepath.Join(a, b)`: empty elements are ignored, the rest is joined
with a slash and cleaned. -/
def Join (a b : GoString) : GoString :=
  if a ≠ [] then Clean (a ++ [47] ++ b)
  else if b ≠ [] then Clean b
  else []

/-! ## The operating system -/

mutual
/-- Directory as `filepath.Walk` reads it: the result of `readDirNames`. -/
inductive FsNode where
  | mk (readDirNames : Except Error FsList)
/-- Names of a directory in the order `readDirNames` reports them, each with
the result of `os.Lstat` on the joined path and what lies below it. -/
inductive FsList where
  | nil
  | cons (name : GoString) (lstat : Except Error FileInfo) (node : FsNode) (rest : FsList)
end

/-- Answers of the operating system to the calls of `ls.go`. -/
structure World where
  stat : GoString → Except Error FileInfo
  readDir : GoString → Except Error (List DirEntry)
  lstat : GoString → Except Error FileInfo
  tree : GoString → FsNode

/-- Bytes written to `StdOut` and the returned error. -/
abbrev Run := GoString × Outcome Unit

/-! ## `ls.go` -/

/-- Source function `isHiddenPath`; `none` is the panic of `path[0]` on an empty string. -/
def isHiddenPath (path : GoString) (forceHidden : Bool) : Option Bool :=
  if forceHidden then some false
  else
    match path with
    | [] => none
    | c :: _ => some (c == dotCharacter)

/-- Lines 63-74 of `nonRecursiveListing`: the loop over `dotFiles`, appending to `d`. -/
def statDotFiles (w : World) : List GoString → List Dir → Outcome (List Dir)
  | [], d => .ok d
  | file :: rest, d =>
    match w.stat file with
    | .error err => .error err
    | .ok stat => statDotFiles w rest (d ++ [⟨file, stat⟩])

/-- Lines 78-90 of `nonRecursiveListing`: the loop over the directory entries,
appending to `d` and to `modTimes`. -/
def collectEntries (dir : GoString) (a : Bool) :
    List DirEntry → List Dir → List GoString → Outcome (List Dir × List GoString)
  | [], d, modTimes => .ok (d, modTimes)
  | entry :: rest, d, modTimes =>
    match isHiddenPath entry.name a with
    | none => .panic
    | some true => collectEntries dir a rest d modTimes
    | some false =>
      match entry.info with
      | .error err => .error err
      | .ok info =>
        collectEntries dir a rest (d ++ [⟨Join dir info.name, info⟩])
          (modTimes ++ [info.modTime.String])

/-- Go `sort.Sort(sort.Reverse(sort.StringSlice(x)))`: the rearrangement of `x`
in which no element is less than a later one. Equal strings cannot be told
apart, so the result does not depend on the sorting algorithm. -/
def sortReverse (x : List GoString) : List GoString :=
  x.insertionSort (fun a b => strLess a b = false)

/-- Lines 93-104 of `nonRecursiveListing`: for every sorted time string, in
order, every entry of `d` whose rendered time equals it is appended. -/
def timeOrdered (modTimes : List GoString) (d : List Dir) : List Dir :=
  (sortReverse modTimes).foldl
    (fun sortedFiles v =>
      d.foldl (fun acc dir => if dir.Info.modTime.String = v then acc ++ [dir] else acc) sortedFiles)
    []

/-- Lines 109-118 of `nonRecursiveListing`: directories and other entries are
collected in two slices, then concatenated. -/
def groupDirs (d : List Dir) : List Dir :=
  let r := d.foldl
    (fun (acc : List Dir × List Dir) file =>
      if file.Info.isDir then (acc.1 ++ [file], acc.2) else (acc.1, acc.2 ++ [file]))
    ([], [])
  r.1 ++ r.2

/-- Lines 92-119 of `nonRecursiveListing`: what becomes of `d` between the
collection and the call of `display`. -/
def arrange (f : Flags) (modTimes : List GoString) (d : List Dir) : List Dir :=
  let d1 := if f.T then timeOrdered modTimes d else d
  if f.G && !f.T then groupDirs d1 else d1

/-- Lines 56-90 of `nonRecursiveListing`: the directory read, the pseudo-entries
when `A` is set, and the loop over the entries; the slice `d` and `modTimes`. -/
def collected (w : World) (l : LS) : Outcome (List Dir × List GoString) :=
  match w.readDir l.Dir with
  | .error err => .error err
  | .ok dirs =>
    match (if l.A then statDotFiles w dotFiles [] else .ok []) with
    | .error err => .error err
    | .panic => .panic
    | .ok d => collectEntries l.Dir l.A dirs d []

/-- Lines 56-119 of `nonRecursiveListing`: the slice handed to `display`, or
the error returned before `display` is reached. -/
def nonRecursiveEntries (w : World) (l : LS) : Outcome (List Dir) :=
  match collected w l with
  | .error err => .error err
  | .panic => .panic
  | .ok (d, modTimes) => .ok (arrange l.toFlags modTimes d)

/-- Source function `nonRecursiveListing`. The method `display` is not part of
the sources at hand and is a parameter. -/
def nonRecursiveListing (display : LS → List Dir → Run) (w : World) (l : LS) : Run :=
  match nonRecursiveEntries w l with
  | .ok d => display l d
  | .error err => ([], .error err)
  | .panic => ([], .panic)

/-- Go `filepath.WalkFunc`, with the state it acts on made explicit. -/
abbrev WalkFunc (σ : Type) := GoString → Option FileInfo → Option Error → σ → σ × Outcome Unit

mutual
/-- Go `filepath.walk(path, info, walkFn)`; `node` answers `readDirNames(path)`. -/
def walk {σ : Type} (walkFn : WalkFunc σ) (path : GoString) (info : FileInfo) :
    FsNode → σ → σ × Outcome Unit
  | .mk readDirNames, s =>
    if !info.isDir then walkFn path (some info) none s
    else
      match readDirNames with
      | .error err => walkFn path (some info) (some err) s
      | .ok names =>
        match walkFn path (some info) none s with
        | (s1, .ok ()) => walkNames walkFn path names s1
        | r => r
/-- Loop of `filepath.walk` over the names of a directory. -/
def walkNames {σ : Type} (walkFn : WalkFunc σ) (path : GoString) :
    FsList → σ → σ × Outcome Unit
  | .nil, s => (s, .ok ())
  | .cons name lstat node rest, s =>
    let filename := Join path name
    match lstat with
    | .error err =>
      match walkFn filename none (some err) s with
      | (s1, .ok ()) => walkNames walkFn path rest s1
      | (s1, .error e) =>
        if e = Error.SkipDir then walkNames walkFn path rest s1 else (s1, .error e)
      | (s1, .panic) => (s1, .panic)
    | .ok fileInfo =>
      match walk walkFn filename fileInfo node s with
      | (s1, .ok ()) => walkNames walkFn path rest s1
      | (s1, .error e) =>
        if fileInfo.isDir ∧ e = Error.SkipDir then walkNames walkFn path rest s1
        else (s1, .error e)
      | (s1, .panic) => (s1, .panic)
end

/-- Go `filepath.Walk(root, fn)`. -/
def Walk {σ : Type} (w : World) (root : GoString) (fn : WalkFunc σ) (s : σ) : σ × Outcome Unit :=
  let r := match w.lstat root with
    | .error err => fn root none (some err) s
    | .ok info => walk fn root info (w.tree root) s
  match r with
  | (s1, .error e) =>
    if e = Error.SkipDir ∨ e = Error.SkipAll then (s1, .ok ()) else (s1, .error e)
  | r => r

/-- The function literal passed to `filepath.Walk` in `listDirRecursively`;
the state is what has been written to `StdOut`. -/
def walkCallback (l : LS) : WalkFunc GoString := fun path _ err out =>
  match err with
  | some e => (out, .error e)
  | none =>
    match isHiddenPath path l.A with
    | none => (out, .panic)
    | some false => (out ++ path ++ str "  ", .ok ())
    | some true => (out, .ok ())

/-- Source function `listDirRecursively`. -/
def listDirRecursively (w : World) (l : LS) : Run :=
  Walk w l.Dir (walkCallback l) []

/-- Source function `showDirStructure`. -/
def showDirStructure (w : World) (l : LS) : Run :=
  match w.stat l.Dir with
  | .error err => ([], .error err)
  | .ok file =>
    let p := trimSuffixSlash l.Dir
    let p := if file.isDir then p ++ str "/" else p
    (p ++ str "\n", .ok ())

/-- Source function `ListDir`. -/
def ListDir (display : LS → List Dir → Run) (w : World) (l : LS) : Run :=
  if l.D then showDirStructure w l
  else if l.R then listDirRecursively w l
  else nonRecursiveListing display w l

/-- Relation between a directory entry and the `Dir` built from it at lines 80-87. -/
def Wraps (dir : GoString) (e : DirEntry) (x : Dir) : Prop :=
  e.info = .ok x.Info ∧ x.Path = Join dir x.Info.name

/-! ## Concrete directories -/

/-- Location with the single zone UTC. -/
def utc : Location := ⟨⟨str "UTC", 0⟩, []⟩

/-- Location of New York around the end of daylight saving time in 2021:
EDT until 2021-11-07 06:00:00 UTC (unix second 1636264800), EST from then on. -/
def newYork : Location := ⟨⟨str "EDT", -14400⟩, [(1636264800, ⟨str "EST", -18000⟩)]⟩

/-- Metadata of a file or directory modified at a whole unix second. -/
def mkInfo (name : String) (isDir : Bool) (sec : Int) (loc : Location) : FileInfo :=
  ⟨str name, 0, 0, ⟨sec, 0, loc⟩, isDir⟩

/-- Directory entry whose `Info()` succeeds. -/
def mkEntry (info : FileInfo) : DirEntry := ⟨info.name, .ok info⟩

/-- World in which the directory `d` holds `entries`, the working directory and
its parent are directories modified at unix seconds 1000 and 2000, and no other
path exists (error 2 is ENOENT). -/
def listingWorld (entries : List DirEntry) (loc : Location) : World where
  stat := fun p =>
    if p = str "." then .ok (mkInfo "." true 1000 loc)
    else if p = str ".." then .ok (mkInfo ".." true 2000 loc)
    else if p = str "d" then .ok (mkInfo "d" true 3000 loc)
    else .error (.errno 2)
  readDir := fun p => if p = str "d" then .ok entries else .error (.errno 2)
  lstat := fun p => if p = str "d" then .ok (mkInfo "d" true 3000 loc) else .error (.errno 2)
  tree := fun _ => .mk (.ok .nil)

/-- Receiver with the given flags `A`, `G`, `T` (all others off) and `Dir = "d"`. -/
def lsOn (a g t : Bool) : LS :=
  { A := a, D := false, G := g, L := false, Q := false, R := false, T := t, Dir := str "d" }

/-- Children `.git` (directory), `a.txt` (10:00), `b.txt` (11:00) and `sub`
(directory) of 2024-01-01, in read order. -/
def sampleInfos : List FileInfo :=
  [mkInfo ".git" true 1704100000 utc, mkInfo "a.txt" false 1704103200 utc,
   mkInfo "b.txt" false 1704106800 utc, mkInfo "sub" true 1704101000 utc]

/-- Directory read reporting `sampleInfos`. -/
def sampleEntries : List DirEntry := sampleInfos.map mkEntry

/-- Two files of one directory modified at the same instant. -/
def sameTimeEntries : List DirEntry :=
  [mkEntry (mkInfo "a.txt" false 1704103200 utc), mkEntry (mkInfo "b.txt" false 1704103200 utc)]

/-- One file `a.txt` modified on 2024-01-01 at 10:00:00 UTC. -/
def oneFileEntries : List DirEntry := [mkEntry (mkInfo "a.txt" false 1704103200 utc)]

/-- Three files modified in New York on 2021-11-07 at 05:10:00, 05:50:00 and
06:20:00 UTC, the third after the clocks went back one hour. -/
def fallBackEntries : List DirEntry :=
  [mkEntry (mkInfo "t1" false 1636261800 newYork), mkEntry (mkInfo "t2" false 1636264200 newYork),
   mkEntry (mkInfo "t3" false 1636266000 newYork)]

/-! ## Traversal order of the recursive walk -/

mutual
/-- Pre-order traversal of what lies at `path` (spec 4.5): every path the walk
reaches when nothing stops it, each with the error the operating system
reports there, if any. Below an unreadable path nothing is reached. -/
def FsNode.events (path : GoString) (isDir : Bool) : FsNode → List (GoString × Option Error)
  | .mk readDirNames =>
    if !isDir then [(path, none)]
    else
      match readDirNames with
      | .error err => [(path, some err)]
      | .ok names => (path, none) :: names.events path
/-- Pre-order traversal of the names of the directory `path`, in read order. -/
def FsList.events (path : GoString) : FsList → List (GoString × Option Error)
  | .nil => []
  | .cons name (.error err) _ rest => (Join path name, some err) :: rest.events path
  | .cons name (.ok fileInfo) node rest =>
    node.events (Join path name) fileInfo.isDir ++ rest.events path
end

/-- Pre-order traversal from `root`, beginning with `os.Lstat(root)`. -/
def World.events (w : World) (root : GoString) : List (GoString × Option Error) :=
  match w.lstat root with
  | .error err => [(root, some err)]
  | .ok info => (w.tree root).events root info.isDir

/-- Run along a traversal: the state is updated by `g` at every readable path,
and the first unreadable path ends the run with its error after `h`. -/
def runEvents {σ : Type} (g h : GoString → σ → σ) :
    List (GoString × Option Error) → σ → σ × Outcome Unit
  | [], s => (s, .ok ())
  | (p, none) :: rest, s => runEvents g h rest (g p s)
  | (p, some e) :: _, s => (h p s, .error e)

/-- Callback that hands back the error it receives, and otherwise updates the
state and returns nil, on every non-empty path. -/
def Relays {σ : Type} (fn : WalkFunc σ) (g h : GoString → σ → σ) : Prop :=
  ∀ path, path ≠ [] → ∀ info s,
    fn path info none s = (g path s, .ok ()) ∧ ∀ e, fn path info (some e) s = (h path s, .error e)

/-- Instrumented callback: besides running `fn` on the output, it appends to a
log the path it was called with and whether `fn` wrote to the output there. -/
def traced (fn : WalkFunc GoString) : WalkFunc (List (GoString × Bool) × GoString) :=
  fun path info err s =>
    let r := fn path info err s.2
    ((s.1 ++ [(path, decide (r.1 ≠ s.2))], r.1), r.2)

/-- Paths on which `listDirRecursively` calls its callback, in order. -/
def visitedPaths (w : World) (l : LS) : List GoString :=
  ((Walk w l.Dir (traced (walkCallback l)) ([], [])).1.1).map Prod.fst

/-- Paths at which the callback of `listDirRecursively` writes to `StdOut`, in order. -/
def emittedPaths (w : World) (l : LS) : List GoString :=
  (((Walk w l.Dir (traced (walkCallback l)) ([], [])).1.1).filter Prod.snd).map Prod.fst

/-- What `walkCallback` appends to the output at a readable non-empty path. -/
def emission (a : Bool) (path : GoString) : GoString :=
  if a || path.head? != some 46 then path ++ str "  " else []


/-! ## Concrete trees -/

/-- Receiver for the recursive walk: flag `A` as given, `R` set, all others off. -/
def lsWalk (a : Bool) (dir : String) : LS :=
  { A := a, D := false, G := false, L := false, Q := false, R := true, T := false, Dir := str dir }

/-- Tree of a directory holding the hidden directory `.git` with the file
`config` in it, and the file `a.txt`. -/
def gitTree : FsNode :=
  .mk (.ok (.cons (str ".git") (.ok (mkInfo ".git" true 1704100000 utc))
      (.mk (.ok (.cons (str "config") (.ok (mkInfo "config" false 1704100000 utc))
        (.mk (.ok .nil)) .nil)))
    (.cons (str "a.txt") (.ok (mkInfo "a.txt" false 1704103200 utc)) (.mk (.ok .nil)) .nil)))

/-- World in which the directory `root` holds `gitTree` and no other path
exists: `os.ReadDir(root)` reports `.git` and `a.txt`. -/
def gitWorld (root : String) : World where
  stat := fun p => if p = str root then .ok (mkInfo root true 3000 utc) else .error (.errno 2)
  readDir := fun p =>
    if p = str root then
      .ok [mkEntry (mkInfo ".git" true 1704100000 utc), mkEntry (mkInfo "a.txt" false 1704103200 utc)]
    else .error (.errno 2)
  lstat := fun p => if p = str root then .ok (mkInfo root true 3000 utc) else .error (.errno 2)
  tree := fun _ => gitTree

/-- World in which the directory `d` holds the file `a.txt`, then a name `b`
on which `os.Lstat` fails with error 13 (EACCES), then the file `c.txt`. -/
def brokenWorld : World where
  stat := fun p => if p = str "d" then .ok (mkInfo "d" true 3000 utc) else .error (.errno 2)
  readDir := fun _ => .error (.errno 2)
  lstat := fun p => if p = str "d" then .ok (mkInfo "d" true 3000 utc) else .error (.errno 2)
  tree := fun _ =>
    .mk (.ok (.cons (str "a.txt") (.ok (mkInfo "a.txt" false 1704103200 utc)) (.mk (.ok .nil))
      (.cons (str "b") (.error (.errno 13)) (.mk (.ok .nil))
        (.cons (str "c.txt") (.ok (mkInfo "c.txt" false 1704103200 utc)) (.mk (.ok .nil)) .nil))))

/-- Receiver for the structure printer: flag `D` set, all others off. -/
def lsDir (dir : String) : LS :=
  { A := false, D := true, G := false, L := false, Q := false, R := false, T := false,
    Dir := str dir }

/-- World in which `foo` (also named `foo/`) is a directory, `bar` is a regular
file and no other path exists. -/
def fooBarWorld : World where
  stat := fun p =>
    if p = str "foo" ∨ p = str "foo/" then .ok (mkInfo "foo" true 3000 utc)
    else if p = str "bar" then .ok (mkInfo "bar" false 3000 utc)
    else .error (.errno 2)
  readDir := fun _ => .error (.errno 2)
  lstat := fun _ => .error (.errno 2)
  tree := fun _ => .mk (.ok .nil)

/-! ## Notions used to state the claims on the one-level listing -/

/-- Rendered modification time of an entry: the string compared at line 98. -/
abbrev renderedTime (x : Dir) : GoString := x.Info.modTime.String

/-- Entries of the collected slice that come from the directory read: all of
them, or all but the first two when `A` is set. -/
def realChildren (l : LS) (d : List Dir) : List Dir := if l.A then d.drop 2 else d

/-- Entries of the collected slice built from `dotFiles`: the first two when `A` is set. -/
def pseudoEntries (l : LS) (d : List Dir) : List Dir := if l.A then d.take 2 else []

/-- First failure met by lines 56-90 of `nonRecursiveListing`, in the order
the calls are made: the directory read; with `A` set the stat of `.`, then of
`..`; then `Info()` of the first child that is not skipped and whose metadata
cannot be retrieved, every child before it being skipped or retrieved. -/
inductive FirstFailure (w : World) (l : LS) (e : Error) : Prop where
  | readDir (h : w.readDir l.Dir = .error e)
  | statDot (dirs : List DirEntry) (hread : w.readDir l.Dir = .ok dirs) (hA : l.A = true)
      (h : w.stat (str ".") = .error e)
  | statDotDot (dirs : List DirEntry) (s1 : FileInfo) (hread : w.readDir l.Dir = .ok dirs)
      (hA : l.A = true) (h1 : w.stat (str ".") = .ok s1) (h : w.stat (str "..") = .error e)
  | info (pre post : List DirEntry) (c : DirEntry)
      (hread : w.readDir l.Dir = .ok (pre ++ c :: post))
      (hstat : l.A = true → ∃ s1 s2, w.stat (str ".") = .ok s1 ∧ w.stat (str "..") = .ok s2)
      (hpre : ∀ x ∈ pre, isHiddenPath x.name l.A = some true ∨
        (isHiddenPath x.name l.A = some false ∧ ∃ fi, x.info = .ok fi))
      (hc : isHiddenPath c.name l.A = some false) (h : c.info = .error e)

/-- Directory read in which `Info()` of the hidden child `.git` fails (error 2,
the file has vanished) and the child `a.txt` is fine. -/
def hiddenBrokenEntries : List DirEntry :=
  [⟨str ".git", .error (.errno 2)⟩, mkEntry (mkInfo "a.txt" false 1704103200 utc)]

/-- Directory read in which `Info()` of the second child `b.txt` fails (error 2). -/
def infoFailEntries : List DirEntry :=
  [mkEntry (mkInfo "a.txt" false 1704103200 utc), ⟨str "b.txt", .error (.errno 2)⟩,
   mkEntry (mkInfo "c.txt" false 1704103200 utc)]

/-- Slice collected from `fallBackEntries` with `A` not set. -/
def fallBackDirs : List Dir :=
  [⟨str "d/t1", mkInfo "t1" false 1636261800 newYork⟩,
   ⟨str "d/t2", mkInfo "t2" false 1636264200 newYork⟩,
   ⟨str "d/t3", mkInfo "t3" false 1636266000 newYork⟩]

/-- Slice collected from `sameTimeEntries` with `A` set: `.`, `..`, `a.txt`, `b.txt`. -/
def sameTimeDirs : List Dir :=
  [⟨str ".", mkInfo "." true 1000 utc⟩, ⟨str "..", mkInfo ".." true 2000 utc⟩,
   ⟨str "d/a.txt", mkInfo "a.txt" false 1704103200 utc⟩,
   ⟨str "d/b.txt", mkInfo "b.txt" false 1704103200 utc⟩]

/-! ## Lemmas on the steps of `nonRecursiveListing` -/

theorem isHiddenPath_true (path : GoString) : isHiddenPath path true = some false := rfl

theorem isHiddenPath_cons (c : UInt8) (cs : GoString) :
    isHiddenPath (c :: cs) false = some (c == 46) := rfl

theorem isHiddenPath_false_of_ne_nil {s : GoString} (h : s ≠ []) :
    isHiddenPath s false = some (s.head? == some 46) := by
  cases s with
  | nil => exact absurd rfl h
  | cons c cs =>
    rw [isHiddenPath_cons]
    by_cases hc : c = 46 <;> simp [hc]

theorem statDotFiles_ok_iff (w : World) (d : List Dir) :
    statDotFiles w dotFiles [] = .ok d ↔
      ∃ s1 s2, w.stat (str ".") = .ok s1 ∧ w.stat (str "..") = .ok s2 ∧
        d = [⟨str ".", s1⟩, ⟨str "..", s2⟩] := by
  have hdot : dotFiles = [str ".", str ".."] := rfl
  rw [hdot]
  simp only [statDotFiles]
  cases h1 : w.stat (str ".") with
  | error e => simp
  | ok s1 =>
    cases h2 : w.stat (str "..") with
    | error e => simp
    | ok s2 =>
      simp only [List.nil_append, List.cons_append, Outcome.ok.injEq, Except.ok.injEq]
      constructor
      · intro h; exact ⟨s1, s2, rfl, rfl, h.symm⟩
      · rintro ⟨t1, t2, rfl, rfl, h⟩; exact h.symm

theorem collectEntries_ok_iff (dir : GoString) (a : Bool) (es : List DirEntry) :
    ∀ (d0 : List Dir) (m0 : List GoString) (d : List Dir) (m : List GoString),
      (∀ e ∈ es, isHiddenPath e.name a ≠ none) →
      (collectEntries dir a es d0 m0 = .ok (d, m) ↔
        ∃ xs, List.Forall₂ (Wraps dir) (es.filter (fun e => isHiddenPath e.name a == some false)) xs ∧
          d = d0 ++ xs ∧ m = m0 ++ xs.map (fun x => x.Info.modTime.String)) := by
  induction es with
  | nil =>
    intro d0 m0 d m _
    simp only [collectEntries, List.filter_nil, List.forall₂_nil_left_iff, Outcome.ok.injEq,
      Prod.mk.injEq]
    constructor
    · rintro ⟨rfl, rfl⟩; exact ⟨[], rfl, by simp, by simp⟩
    · rintro ⟨xs, rfl, h1, h2⟩; simp at h1 h2; exact ⟨h1.symm, h2.symm⟩
  | cons e es ih =>
    intro d0 m0 d m hp
    have hp1 : ∀ e1 ∈ es, isHiddenPath e1.name a ≠ none :=
      fun e1 h1 => hp e1 (List.mem_cons_of_mem _ h1)
    have hpe := hp e (List.mem_cons_self _ _)
    cases hh : isHiddenPath e.name a with
    | none => exact absurd hh hpe
    | some b =>
      cases b with
      | true =>
        have hf : (e :: es).filter (fun e => isHiddenPath e.name a == some false)
            = es.filter (fun e => isHiddenPath e.name a == some false) := by
          rw [List.filter_cons]; simp [hh]
        rw [hf]
        simp only [collectEntries, hh]
        exact ih d0 m0 d m hp1
      | false =>
        have hf : (e :: es).filter (fun e => isHiddenPath e.name a == some false)
            = e :: es.filter (fun e => isHiddenPath e.name a == some false) := by
          rw [List.filter_cons]; simp [hh]
        rw [hf]
        simp only [collectEntries, hh]
        cases hi : e.info with
        | error err =>
          simp only [false_iff, not_exists, reduceCtorEq]
          rintro xs ⟨h, _⟩
          cases h with
          | cons hw _ => simp [Wraps, hi] at hw
        | ok info =>
          simp only
          rw [ih _ _ d m hp1]
          constructor
          · rintro ⟨xs, hx, rfl, rfl⟩
            refine ⟨⟨Join dir info.name, info⟩ :: xs, List.Forall₂.cons ⟨hi, rfl⟩ hx, ?_, ?_⟩
            · simp
            · simp
          · rintro ⟨xs, hx, rfl, rfl⟩
            cases hx with
            | cons hw hrest =>
              rename_i x xs1
              obtain ⟨h1, h2⟩ := hw
              rw [hi] at h1
              have hxi : x.Info = info := by injection h1 with h1; exact h1.symm
              have hx : x = ⟨Join dir info.name, info⟩ := by
                cases x; simp only at hxi h2; subst hxi; rw [h2]
              subst hx
              exact ⟨xs1, hrest, by simp, by simp⟩

theorem groupDirs_foldl (d : List Dir) :
    ∀ acc : List Dir × List Dir,
      d.foldl (fun (acc : List Dir × List Dir) file =>
          if file.Info.isDir then (acc.1 ++ [file], acc.2) else (acc.1, acc.2 ++ [file])) acc
        = (acc.1 ++ d.filter (fun x => x.Info.isDir),
           acc.2 ++ d.filter (fun x => !x.Info.isDir)) := by
  induction d with
  | nil => intro acc; simp
  | cons x xs ih =>
    intro acc
    rw [List.foldl_cons, ih]
    cases hx : x.Info.isDir <;> simp [hx]

theorem groupDirs_eq (d : List Dir) :
    groupDirs d = d.filter (fun x => x.Info.isDir) ++ d.filter (fun x => !x.Info.isDir) := by
  unfold groupDirs
  rw [groupDirs_foldl]
  simp

theorem timeOrdered_inner (v : GoString) (d : List Dir) :
    ∀ acc : List Dir,
      d.foldl (fun acc dir => if dir.Info.modTime.String = v then acc ++ [dir] else acc) acc
        = acc ++ d.filter (fun x => decide (x.Info.modTime.String = v)) := by
  induction d with
  | nil => intro acc; simp
  | cons x xs ih =>
    intro acc
    rw [List.foldl_cons, ih]
    by_cases hx : x.Info.modTime.String = v <;> simp [hx]

theorem timeOrdered_outer (d : List Dir) (vs : List GoString) :
    ∀ acc : List Dir,
      vs.foldl (fun sortedFiles v =>
          d.foldl (fun acc dir => if dir.Info.modTime.String = v then acc ++ [dir] else acc)
            sortedFiles) acc
        = acc ++ vs.flatMap (fun v => d.filter (fun x => decide (x.Info.modTime.String = v))) := by
  induction vs with
  | nil => intro acc; simp
  | cons v vs ih =>
    intro acc
    rw [List.foldl_cons, ih, timeOrdered_inner]
    simp

theorem timeOrdered_eq (modTimes : List GoString) (d : List Dir) :
    timeOrdered modTimes d
      = (sortReverse modTimes).flatMap
          (fun v => d.filter (fun x => decide (x.Info.modTime.String = v))) := by
  unfold timeOrdered
  rw [timeOrdered_outer]
  simp

theorem mem_of_mem_timeOrdered {modTimes : List GoString} {d : List Dir} {x : Dir}
    (h : x ∈ timeOrdered modTimes d) : x ∈ d := by
  rw [timeOrdered_eq, List.mem_flatMap] at h
  obtain ⟨v, _, hv⟩ := h
  exact (List.mem_filter.mp hv).1

theorem mem_groupDirs {d : List Dir} {x : Dir} : x ∈ groupDirs d ↔ x ∈ d := by
  rw [groupDirs_eq, List.mem_append, List.mem_filter, List.mem_filter]
  cases hx : x.Info.isDir <;> simp [hx]

theorem mem_of_mem_arrange {f : Flags} {modTimes : List GoString} {d : List Dir} {x : Dir}
    (h : x ∈ arrange f modTimes d) : x ∈ d := by
  unfold arrange at h
  cases hT : f.T <;> cases hG : f.G <;> simp [hT, hG] at h
  · exact h
  · exact mem_groupDirs.mp h
  · exact mem_of_mem_timeOrdered h
  · exact mem_of_mem_timeOrdered h

theorem arrange_eq (f : Flags) (modTimes : List GoString) (d : List Dir) :
    arrange f modTimes d
      = if f.T then timeOrdered modTimes d else if f.G then groupDirs d else d := by
  unfold arrange
  cases hT : f.T <;> cases hG : f.G <;> simp

theorem forall₂_congr_of_mem {α β : Type} {R S : α → β → Prop} (l1 : List α) :
    ∀ l2 : List β, (∀ a ∈ l1, ∀ b, R a b ↔ S a b) →
      (List.Forall₂ R l1 l2 ↔ List.Forall₂ S l1 l2) := by
  induction l1 with
  | nil => intro l2 _; simp
  | cons a as ih =>
    intro l2 h
    cases l2 with
    | nil => simp
    | cons b bs =>
      rw [List.forall₂_cons, List.forall₂_cons, h a (List.mem_cons_self _ _) b,
        ih bs (fun a1 h1 => h a1 (List.mem_cons_of_mem _ h1))]

theorem forall₂_exists_of_mem_right {α β : Type} {R : α → β → Prop} {l1 : List α} :
    ∀ {l2 : List β}, List.Forall₂ R l1 l2 → ∀ b ∈ l2, ∃ a ∈ l1, R a b := by
  induction l1 with
  | nil => intro l2 h b hb; cases h; cases hb
  | cons a as ih =>
    intro l2 h b hb
    cases h with
    | cons hab hrest =>
      rcases List.mem_cons.mp hb with rfl | hb1
      · exact ⟨a, List.mem_cons_self _ _, hab⟩
      · obtain ⟨a1, ha1, hr⟩ := ih hrest b hb1
        exact ⟨a1, List.mem_cons_of_mem _ ha1, hr⟩

theorem nonRecursiveEntries_ok_iff (w : World) (l : LS) (out : List Dir) :
    nonRecursiveEntries w l = .ok out ↔
      ∃ d m, collected w l = .ok (d, m) ∧ out = arrange l.toFlags m d := by
  unfold nonRecursiveEntries
  cases hc : collected w l with
  | error e => simp
  | panic => simp
  | ok p =>
    obtain ⟨d, m⟩ := p
    simp only [Outcome.ok.injEq, Prod.mk.injEq]
    constructor
    · intro h; exact ⟨d, m, ⟨rfl, rfl⟩, h.symm⟩
    · rintro ⟨d1, m1, ⟨rfl, rfl⟩, h⟩; exact h.symm

theorem collected_of_readDir_hidden {w : World} {l : LS} {dirs : List DirEntry}
    (hread : w.readDir l.Dir = .ok dirs) (hA : l.A = false) :
    collected w l = collectEntries l.Dir false dirs [] [] := by
  unfold collected
  rw [hread, hA]
  simp

theorem filter_visible_eq {dirs : List DirEntry} (hname : ∀ e ∈ dirs, e.name ≠ []) :
    dirs.filter (fun e => isHiddenPath e.name false == some false)
      = dirs.filter (fun e => e.name.head? != some 46) := by
  apply List.filter_congr
  intro e he
  rw [isHiddenPath_false_of_ne_nil (hname e he)]
  cases h : (e.name.head? == some 46) <;> simp_all

theorem collected_all_ok_iff {w : World} {l : LS} {dirs : List DirEntry}
    (hread : w.readDir l.Dir = .ok dirs) (hA : l.A = true) (d : List Dir) (m : List GoString) :
    collected w l = .ok (d, m) ↔
      ∃ s1 s2 rest, w.stat (str ".") = .ok s1 ∧ w.stat (str "..") = .ok s2 ∧
        List.Forall₂ (Wraps l.Dir) dirs rest ∧
        d = ⟨str ".", s1⟩ :: ⟨str "..", s2⟩ :: rest ∧
        m = rest.map (fun x => x.Info.modTime.String) := by
  have hp : ∀ e ∈ dirs, isHiddenPath e.name true ≠ none := by
    intro e _; rw [isHiddenPath_true]; simp
  have hfil : dirs.filter (fun e => isHiddenPath e.name true == some false) = dirs := by
    rw [List.filter_eq_self]; intro e _; rw [isHiddenPath_true]; simp
  unfold collected
  rw [hread, hA]
  simp only [if_true]
  cases hs : statDotFiles w dotFiles [] with
  | error e =>
    simp only [false_iff, not_exists, reduceCtorEq]
    rintro s1 s2 rest ⟨h1, h2, _⟩
    have := (statDotFiles_ok_iff w _).mpr ⟨s1, s2, h1, h2, rfl⟩
    rw [hs] at this; cases this
  | panic =>
    simp only [false_iff, not_exists, reduceCtorEq]
    rintro s1 s2 rest ⟨h1, h2, _⟩
    have := (statDotFiles_ok_iff w _).mpr ⟨s1, s2, h1, h2, rfl⟩
    rw [hs] at this; cases this
  | ok d0 =>
    obtain ⟨s1, s2, h1, h2, rfl⟩ := (statDotFiles_ok_iff w d0).mp hs
    simp only
    rw [collectEntries_ok_iff l.Dir true dirs _ _ d m hp, hfil]
    constructor
    · rintro ⟨xs, hx, rfl, rfl⟩
      exact ⟨s1, s2, xs, h1, h2, hx, by simp, by simp⟩
    · rintro ⟨t1, t2, rest, g1, g2, hx, rfl, rfl⟩
      rw [h1] at g1; rw [h2] at g2
      injection g1 with g1; injection g2 with g2
      subst g1; subst g2
      exact ⟨rest, hx, by simp, by simp⟩

theorem mkEntry_consistent (infos : List FileInfo) :
    ∀ e ∈ infos.map mkEntry, ∀ fi, e.info = .ok fi → fi.name = e.name := by
  intro e he fi h
  obtain ⟨i, _, rfl⟩ := List.mem_map.mp he
  simp only [mkEntry] at h ⊢
  injection h with h
  rw [h]

theorem nonRecursiveListing_hands_iff (w : World) (l : LS) (d : List Dir) :
    (∀ display, nonRecursiveListing display w l = display l d) ↔
      nonRecursiveEntries w l = .ok d := by
  constructor
  · intro h
    cases he : nonRecursiveEntries w l with
    | ok d1 =>
      have h1 := h (fun _ x => (if x = d then [] else [0], .ok ()))
      simp only [nonRecursiveListing, he, if_true, Prod.mk.injEq, and_true] at h1
      by_cases hd : d1 = d
      · rw [hd]
      · rw [if_neg hd] at h1
        cases h1
    | error err =>
      have h1 := h (fun _ _ => ([], .ok ()))
      simp [nonRecursiveListing, he] at h1
    | panic =>
      have h1 := h (fun _ _ => ([], .ok ()))
      simp [nonRecursiveListing, he] at h1
  · intro h display
    unfold nonRecursiveListing
    rw [h]

theorem collectEntries_ne_panic (dir : GoString) (a : Bool) (es : List DirEntry) :
    ∀ (d0 : List Dir) (m0 : List GoString),
      (∀ e ∈ es, isHiddenPath e.name a ≠ none) →
      collectEntries dir a es d0 m0 ≠ .panic := by
  induction es with
  | nil => intro d0 m0 _; simp [collectEntries]
  | cons e es ih =>
    intro d0 m0 hp
    have hp1 : ∀ e1 ∈ es, isHiddenPath e1.name a ≠ none :=
      fun e1 h1 => hp e1 (List.mem_cons_of_mem _ h1)
    have hpe := hp e (List.mem_cons_self _ _)
    cases hh : isHiddenPath e.name a with
    | none => exact absurd hh hpe
    | some b =>
      cases b with
      | true => simp only [collectEntries, hh]; exact ih d0 m0 hp1
      | false =>
        simp only [collectEntries, hh]
        cases hi : e.info with
        | error err => simp
        | ok info => exact ih _ _ hp1

theorem nonRecursiveEntries_ne_panic {w : World} {l : LS} {dirs : List DirEntry}
    (hread : w.readDir l.Dir = .ok dirs) (hname : ∀ e ∈ dirs, e.name ≠ [])
    (hA : l.A = false) : nonRecursiveEntries w l ≠ .panic := by
  have hp : ∀ e ∈ dirs, isHiddenPath e.name false ≠ none := by
    intro e he
    rw [isHiddenPath_false_of_ne_nil (hname e he)]
    simp
  have hcol := collected_of_readDir_hidden hread hA
  have hne := collectEntries_ne_panic l.Dir false dirs [] [] hp
  unfold nonRecursiveEntries
  rw [hcol]
  cases hc : collectEntries l.Dir false dirs [] [] with
  | ok p => simp
  | error err => simp
  | panic => exact absurd hc hne

theorem entries_hide_dot_names (w : World) (l : LS) (dirs : List DirEntry)
    (hread : w.readDir l.Dir = .ok dirs)
    (hname : ∀ e ∈ dirs, e.name ≠ [])
    (hinfo : ∀ e ∈ dirs, ∀ fi, e.info = .ok fi → fi.name = e.name)
    (hA : l.A = false) :
    (∀ d, nonRecursiveEntries w l = .ok d → ∀ x ∈ d, x.Info.name.head? ≠ some 46) ∧
    (l.T = false → l.G = false → ∀ d, (nonRecursiveEntries w l = .ok d ↔
      List.Forall₂ (fun (e : DirEntry) (x : Dir) =>
          e.info = .ok x.Info ∧ x.Path = Join l.Dir e.name)
        (dirs.filter (fun e => e.name.head? != some 46)) d)) := by
  have hp : ∀ e ∈ dirs, isHiddenPath e.name false ≠ none := by
    intro e he
    rw [isHiddenPath_false_of_ne_nil (hname e he)]
    simp
  have hcol := collected_of_readDir_hidden hread hA
  constructor
  · intro out hout x hx
    obtain ⟨d, m, hc, rfl⟩ := (nonRecursiveEntries_ok_iff w l out).mp hout
    have hxd : x ∈ d := mem_of_mem_arrange hx
    rw [hcol, collectEntries_ok_iff l.Dir false dirs [] [] d m hp] at hc
    obtain ⟨xs, hf, rfl, _⟩ := hc
    rw [filter_visible_eq hname] at hf
    obtain ⟨e, he, hw⟩ := forall₂_exists_of_mem_right hf x hxd
    obtain ⟨hed, hvis⟩ := List.mem_filter.mp he
    rw [hinfo e hed x.Info hw.1]
    simpa using hvis
  · intro hT hG out
    rw [nonRecursiveEntries_ok_iff, hcol]
    have harr : ∀ m d, arrange l.toFlags m d = d := by
      intro m d; rw [arrange_eq, hT, hG]; simp
    have hcongr : ∀ e ∈ dirs.filter (fun e => e.name.head? != some 46), ∀ x : Dir,
        (Wraps l.Dir e x ↔ (e.info = .ok x.Info ∧ x.Path = Join l.Dir e.name)) := by
      intro e he x
      have hed := (List.mem_filter.mp he).1
      unfold Wraps
      constructor
      · rintro ⟨h1, h2⟩; exact ⟨h1, by rw [h2, hinfo e hed x.Info h1]⟩
      · rintro ⟨h1, h2⟩; exact ⟨h1, by rw [h2, hinfo e hed x.Info h1]⟩
    rw [← forall₂_congr_of_mem _ out hcongr]
    constructor
    · rintro ⟨d, m, hc, rfl⟩
      rw [collectEntries_ok_iff l.Dir false dirs [] [] d m hp] at hc
      obtain ⟨xs, hf, rfl, _⟩ := hc
      rw [filter_visible_eq hname] at hf
      rw [harr]
      simpa using hf
    · intro hf
      refine ⟨out, out.map (fun x => x.Info.modTime.String), ?_, (harr _ _).symm⟩
      rw [collectEntries_ok_iff l.Dir false dirs [] [] _ _ hp]
      refine ⟨out, ?_, by simp, by simp⟩
      rw [filter_visible_eq hname]
      exact hf

theorem entries_all_pseudo_entries_first (w : World) (l : LS) (dirs : List DirEntry)
    (hread : w.readDir l.Dir = .ok dirs)
    (hA : l.A = true) (hT : l.T = false) (hG : l.G = false) (d : List Dir) :
    nonRecursiveEntries w l = .ok d ↔
      ∃ s1 s2 rest, w.stat (str ".") = .ok s1 ∧ w.stat (str "..") = .ok s2 ∧
        d = ⟨str ".", s1⟩ :: ⟨str "..", s2⟩ :: rest ∧
        List.Forall₂ (fun (e : DirEntry) (x : Dir) =>
          e.info = .ok x.Info ∧ x.Path = Join l.Dir x.Info.name) dirs rest := by
  have harr : ∀ m d, arrange l.toFlags m d = d := by
    intro m d; rw [arrange_eq, hT, hG]; simp
  rw [nonRecursiveEntries_ok_iff]
  constructor
  · rintro ⟨d1, m, hc, rfl⟩
    obtain ⟨s1, s2, rest, h1, h2, hx, rfl, _⟩ := (collected_all_ok_iff hread hA d1 m).mp hc
    exact ⟨s1, s2, rest, h1, h2, harr _ _, hx⟩
  · rintro ⟨s1, s2, rest, h1, h2, rfl, hx⟩
    exact ⟨_, _, (collected_all_ok_iff hread hA _ _).mpr ⟨s1, s2, rest, h1, h2, hx, rfl, rfl⟩,
      (harr _ _).symm⟩

/-! ## The claims -/

/-- C1: on a non-empty string `isHiddenPath` returns a value (the index `path[0]`
does not fail); with `forceHidden` set it returns false, and without it the
result is true exactly when the first byte is the ASCII period (46). -/
theorem isHiddenPath_nonempty (s : GoString) (h : s ≠ []) :
    isHiddenPath s true = some false ∧
      ∃ b, isHiddenPath s false = some b ∧ (b = true ↔ s.head? = some dotCharacter) := by
  refine ⟨rfl, ?_⟩
  cases s with
  | nil => exact absurd rfl h
  | cons c cs =>
    refine ⟨c == dotCharacter, rfl, ?_⟩
    simp

theorem isHiddenPath_nonempty_witness :
    str ".git" ≠ [] ∧ (isHiddenPath (str ".git") true = some false ∧
      ∃ b, isHiddenPath (str ".git") false = some b ∧
        (b = true ↔ (str ".git").head? = some dotCharacter)) :=
  ⟨by decide, isHiddenPath_nonempty (str ".git") (by decide)⟩

/-- C2: for a directory read that succeeded (entries named by non-empty names,
`Info()` reporting the name of its entry) and `A` false: `nonRecursiveListing`
either calls `display` on one slice and returns what `display` returns, or
returns an error without writing; whatever `T` and `G` are, no entry of the
slice handed to `display` has a name beginning with a period; and with `T` and
`G` false the slice handed to `display` is `d` exactly when `d` matches, one
for one and in read order, the children whose name does not begin with a
period, each carrying the child's `Info()` and the path `Join(Dir, name)`.
That `d` is the slice handed to `display` is stated as: for every `display`,
the result of `nonRecursiveListing` is that of `display` on `d`. -/
theorem nonRecursive_hides_dot_names (w : World) (l : LS) (dirs : List DirEntry)
    (hread : w.readDir l.Dir = .ok dirs)
    (hname : ∀ e ∈ dirs, e.name ≠ [])
    (hinfo : ∀ e ∈ dirs, ∀ fi, e.info = .ok fi → fi.name = e.name)
    (hA : l.A = false) :
    ((∃ d, ∀ display, nonRecursiveListing display w l = display l d) ∨
      (∃ err, ∀ display, nonRecursiveListing display w l = ([], .error err))) ∧
    (∀ d, (∀ display, nonRecursiveListing display w l = display l d) →
      ∀ x ∈ d, x.Info.name.head? ≠ some 46) ∧
    (l.T = false → l.G = false → ∀ d,
      ((∀ display, nonRecursiveListing display w l = display l d) ↔
        List.Forall₂ (fun (e : DirEntry) (x : Dir) =>
            e.info = .ok x.Info ∧ x.Path = Join l.Dir e.name)
          (dirs.filter (fun e => e.name.head? != some 46)) d)) := by
  have hent := entries_hide_dot_names w l dirs hread hname hinfo hA
  refine ⟨?_, ?_, ?_⟩
  · cases he : nonRecursiveEntries w l with
    | ok d => exact Or.inl ⟨d, (nonRecursiveListing_hands_iff w l d).mpr he⟩
    | error err =>
      refine Or.inr ⟨err, ?_⟩
      intro display
      unfold nonRecursiveListing
      rw [he]
    | panic => exact absurd he (nonRecursiveEntries_ne_panic hread hname hA)
  · intro d hd
    exact hent.1 d ((nonRecursiveListing_hands_iff w l d).mp hd)
  · intro hT hG d
    rw [nonRecursiveListing_hands_iff]
    exact hent.2 hT hG d

/-- C3: for a directory read that succeeded, with `A` set and `T` and `G` not
set, the slice handed to `display` is `d` (for every `display`, the result of
`nonRecursiveListing` is that of `display` on `d`) exactly when `d` is the entry
with path `.` and the entry with path `..` (each holding the result of `os.Stat`
on that literal path, whatever `Dir` is), followed by one entry for every child
of the read, dot-named children included, in read order. -/
theorem nonRecursive_all_pseudo_entries_first (w : World) (l : LS) (dirs : List DirEntry)
    (hread : w.readDir l.Dir = .ok dirs)
    (hA : l.A = true) (hT : l.T = false) (hG : l.G = false) (d : List Dir) :
    (∀ display, nonRecursiveListing display w l = display l d) ↔
      ∃ s1 s2 rest, w.stat (str ".") = .ok s1 ∧ w.stat (str "..") = .ok s2 ∧
        d = ⟨str ".", s1⟩ :: ⟨str "..", s2⟩ :: rest ∧
        List.Forall₂ (fun (e : DirEntry) (x : Dir) =>
          e.info = .ok x.Info ∧ x.Path = Join l.Dir x.Info.name) dirs rest := by
  rw [nonRecursiveListing_hands_iff]
  exact entries_all_pseudo_entries_first w l dirs hread hA hT hG d

theorem nonRecursive_hides_dot_names_witness :
    (listingWorld sampleEntries utc).readDir (lsOn false false false).Dir = .ok sampleEntries ∧
    (∀ e ∈ sampleEntries, e.name ≠ []) ∧
    (∀ e ∈ sampleEntries, ∀ fi, e.info = .ok fi → fi.name = e.name) ∧
    nonRecursiveListing (fun _ d => (d.flatMap (fun x => x.Path ++ str "\n"), .ok ()))
        (listingWorld sampleEntries utc) (lsOn false false false)
      = (str "d/a.txt\nd/b.txt\nd/sub\n", .ok ()) ∧
    ∀ x ∈ [(⟨str "d/a.txt", mkInfo "a.txt" false 1704103200 utc⟩ : Dir),
           ⟨str "d/b.txt", mkInfo "b.txt" false 1704106800 utc⟩,
           ⟨str "d/sub", mkInfo "sub" true 1704101000 utc⟩], x.Info.name.head? ≠ some 46 :=
  ⟨rfl, by decide, mkEntry_consistent sampleInfos, by decide,
    (nonRecursive_hides_dot_names (listingWorld sampleEntries utc) (lsOn false false false)
      sampleEntries rfl (by decide) (mkEntry_consistent sampleInfos) rfl).2.1 _
      ((nonRecursiveListing_hands_iff _ _ _).mpr (by decide))⟩

theorem nonRecursive_all_pseudo_entries_first_witness :
    (listingWorld sampleEntries utc).readDir (lsOn true false false).Dir = .ok sampleEntries ∧
    nonRecursiveListing (fun _ d => (d.flatMap (fun x => x.Path ++ str "\n"), .ok ()))
        (listingWorld sampleEntries utc) (lsOn true false false)
      = (str ".\n..\nd/.git\nd/a.txt\nd/b.txt\nd/sub\n", .ok ()) ∧
    ∃ s1 s2 rest,
      (listingWorld sampleEntries utc).stat (str ".") = .ok s1 ∧
      (listingWorld sampleEntries utc).stat (str "..") = .ok s2 ∧
      [(⟨str ".", mkInfo "." true 1000 utc⟩ : Dir), ⟨str "..", mkInfo ".." true 2000 utc⟩,
        ⟨str "d/.git", mkInfo ".git" true 1704100000 utc⟩,
        ⟨str "d/a.txt", mkInfo "a.txt" false 1704103200 utc⟩,
        ⟨str "d/b.txt", mkInfo "b.txt" false 1704106800 utc⟩,
        ⟨str "d/sub", mkInfo "sub" true 1704101000 utc⟩]
        = ⟨str ".", s1⟩ :: ⟨str "..", s2⟩ :: rest ∧
      List.Forall₂ (fun (e : DirEntry) (x : Dir) =>
        e.info = .ok x.Info ∧ x.Path = Join (lsOn true false false).Dir x.Info.name)
        sampleEntries rest :=
  ⟨rfl, by decide,
    (nonRecursive_all_pseudo_entries_first (listingWorld sampleEntries utc)
      (lsOn true false false) sampleEntries rfl rfl rfl rfl _).mp
      ((nonRecursiveListing_hands_iff _ _ _).mpr (by decide))⟩

/-- C4 (the code breaks it): with `A` and `T` set, a directory holding the one
file `a.txt` collects the three entries `.`, `..` and `d/a.txt`, but the
time-ordering step hands only `d/a.txt` to `display`: the output is not a
permutation of the collected entries. -/
theorem timeOrdered_drops_pseudo_entries :
    collected (listingWorld oneFileEntries utc) (lsOn true false true)
      = .ok ([⟨str ".", mkInfo "." true 1000 utc⟩, ⟨str "..", mkInfo ".." true 2000 utc⟩,
              ⟨str "d/a.txt", mkInfo "a.txt" false 1704103200 utc⟩],
             [str "2024-01-01 10:00:00 +0000 UTC"]) ∧
    nonRecursiveEntries (listingWorld oneFileEntries utc) (lsOn true false true)
      = .ok [⟨str "d/a.txt", mkInfo "a.txt" false 1704103200 utc⟩] ∧
    ¬ List.Perm [(⟨str "d/a.txt", mkInfo "a.txt" false 1704103200 utc⟩ : Dir)]
        [⟨str ".", mkInfo "." true 1000 utc⟩, ⟨str "..", mkInfo ".." true 2000 utc⟩,
         ⟨str "d/a.txt", mkInfo "a.txt" false 1704103200 utc⟩] :=
  ⟨by decide, by decide, fun h => absurd h.length_eq (by decide)⟩

/-- C5 (the code breaks it): with `T` set, two files `a.txt` and `b.txt` of one
directory that were modified at the same instant are each handed to `display`
twice, so the output holds duplicate paths. -/
theorem timeOrdered_repeats_equal_times :
    collected (listingWorld sameTimeEntries utc) (lsOn false false true)
      = .ok ([⟨str "d/a.txt", mkInfo "a.txt" false 1704103200 utc⟩,
              ⟨str "d/b.txt", mkInfo "b.txt" false 1704103200 utc⟩],
             [str "2024-01-01 10:00:00 +0000 UTC", str "2024-01-01 10:00:00 +0000 UTC"]) ∧
    nonRecursiveEntries (listingWorld sameTimeEntries utc) (lsOn false false true)
      = .ok [⟨str "d/a.txt", mkInfo "a.txt" false 1704103200 utc⟩,
             ⟨str "d/b.txt", mkInfo "b.txt" false 1704103200 utc⟩,
             ⟨str "d/a.txt", mkInfo "a.txt" false 1704103200 utc⟩,
             ⟨str "d/b.txt", mkInfo "b.txt" false 1704103200 utc⟩] ∧
    ¬ (List.map Dir.Path
        [⟨str "d/a.txt", mkInfo "a.txt" false 1704103200 utc⟩,
         ⟨str "d/b.txt", mkInfo "b.txt" false 1704103200 utc⟩,
         ⟨str "d/a.txt", mkInfo "a.txt" false 1704103200 utc⟩,
         ⟨str "d/b.txt", mkInfo "b.txt" false 1704103200 utc⟩]).Nodup :=
  ⟨by decide, by decide, by decide⟩

/-- C6 (the code breaks it): three files modified in New York at instants
T1 < T2 < T3, where T3 falls after the clocks went back, render as 01:10:00 EDT,
01:50:00 EDT and 01:20:00 EST; with `T` set they are handed to `display` in the
order T2, T3, T1 (the order of the rendered text), not T3, T2, T1. -/
theorem timeOrdered_follows_rendered_text :
    (mkInfo "t1" false 1636261800 newYork).modTime.Before
      (mkInfo "t2" false 1636264200 newYork).modTime ∧
    (mkInfo "t2" false 1636264200 newYork).modTime.Before
      (mkInfo "t3" false 1636266000 newYork).modTime ∧
    (mkInfo "t1" false 1636261800 newYork).modTime.String = str "2021-11-07 01:10:00 -0400 EDT" ∧
    (mkInfo "t2" false 1636264200 newYork).modTime.String = str "2021-11-07 01:50:00 -0400 EDT" ∧
    (mkInfo "t3" false 1636266000 newYork).modTime.String = str "2021-11-07 01:20:00 -0500 EST" ∧
    nonRecursiveEntries (listingWorld fallBackEntries newYork) (lsOn false false true)
      = .ok [⟨str "d/t2", mkInfo "t2" false 1636264200 newYork⟩,
             ⟨str "d/t3", mkInfo "t3" false 1636266000 newYork⟩,
             ⟨str "d/t1", mkInfo "t1" false 1636261800 newYork⟩] ∧
    nonRecursiveEntries (listingWorld fallBackEntries newYork) (lsOn false false true)
      ≠ .ok [⟨str "d/t3", mkInfo "t3" false 1636266000 newYork⟩,
             ⟨str "d/t2", mkInfo "t2" false 1636264200 newYork⟩,
             ⟨str "d/t1", mkInfo "t1" false 1636261800 newYork⟩] :=
  ⟨by decide, by decide, by decide, by decide, by decide, by decide, by decide⟩

/-- C7: the grouping step, and so the arrangement with `G` set and `T` not set,
yields the directories of `d` in their original order followed by the other
entries of `d` in their original order; the result is a permutation of `d` and
has its length. -/
theorem groupDirs_directories_first (f : Flags) (modTimes : List GoString) (d : List Dir) :
    groupDirs d = d.filter (fun x => x.Info.isDir) ++ d.filter (fun x => !x.Info.isDir) ∧
    arrange { f with G := true, T := false } modTimes d = groupDirs d ∧
    (groupDirs d).Perm d ∧
    (groupDirs d).length = d.length := by
  have hperm : (groupDirs d).Perm d := by
    rw [groupDirs_eq]
    exact List.filter_append_perm _ d
  refine ⟨groupDirs_eq d, ?_, hperm, hperm.length_eq⟩
  rw [arrange_eq]
  simp

/-- C8: the grouping step is idempotent. -/
theorem groupDirs_idempotent (d : List Dir) : groupDirs (groupDirs d) = groupDirs d := by
  rw [groupDirs_eq (groupDirs d), groupDirs_eq d]
  simp [List.filter_append, List.filter_filter]

/-- C9: the slice handed to `display` is the time-ordered `d` when `T` is set
(with `G` set as well the result is that of `T` alone), the grouped `d` when `G`
is set and `T` is not, and `d` itself when neither is set: for every `display`,
`nonRecursiveListing` returns what `display` returns on exactly that arrangement
of the collected slice, and returns the error of the collection, writing
nothing, when the collection fails. -/
theorem arrangement_by_flags (display : LS → List Dir → Run) (w : World) (l : LS) (f : Flags)
    (modTimes : List GoString) (d : List Dir) :
    arrange { f with T := true } modTimes d = timeOrdered modTimes d ∧
    arrange { f with T := true, G := true } modTimes d
      = arrange { f with T := true, G := false } modTimes d ∧
    arrange { f with T := false, G := true } modTimes d = groupDirs d ∧
    arrange { f with T := false, G := false } modTimes d = d ∧
    nonRecursiveEntries w l =
      (match collected w l with
        | .ok (d, modTimes) =>
          .ok (if l.T then timeOrdered modTimes d else if l.G then groupDirs d else d)
        | .error err => .error err
        | .panic => .panic) ∧
    nonRecursiveListing display w l =
      (match collected w l with
        | .ok (d, modTimes) =>
          display l (if l.T then timeOrdered modTimes d else if l.G then groupDirs d else d)
        | .error err => ([], .error err)
        | .panic => ([], .panic)) := by
  refine ⟨?_, ?_, ?_, ?_, ?_, ?_⟩
  · rw [arrange_eq]; simp
  · rw [arrange_eq, arrange_eq]; simp
  · rw [arrange_eq]; simp
  · rw [arrange_eq]; simp
  · unfold nonRecursiveEntries
    cases collected w l with
    | error e => rfl
    | panic => rfl
    | ok p => obtain ⟨d1, m1⟩ := p; simp only [arrange_eq]
  · unfold nonRecursiveListing nonRecursiveEntries
    cases collected w l with
    | error e => rfl
    | panic => rfl
    | ok p => obtain ⟨d1, m1⟩ := p; simp only [arrange_eq]

/-- C10: `ListDir` runs one strategy, by priority: with `D` set it is
`showDirStructure` whatever the other flags are; with `D` not set and `R` set it
is `listDirRecursively`; with neither set it is `nonRecursiveListing`. Output and
returned error are those of that strategy. -/
theorem ListDir_runs_one_strategy (display : LS → List Dir → Run) (w : World) (f : Flags)
    (dir : GoString) :
    ListDir display w ⟨{ f with D := true }, dir⟩
      = showDirStructure w ⟨{ f with D := true }, dir⟩ ∧
    ListDir display w ⟨{ f with D := false, R := true }, dir⟩
      = listDirRecursively w ⟨{ f with D := false, R := true }, dir⟩ ∧
    ListDir display w ⟨{ f with D := false, R := false }, dir⟩
      = nonRecursiveListing display w ⟨{ f with D := false, R := false }, dir⟩ := by
  refine ⟨?_, ?_, ?_⟩ <;> simp [ListDir]

/-! ## Lemmas on the recursive walk -/

theorem Clean_ne_nil (p : GoString) : Clean p ≠ [] := by
  unfold Clean
  split
  · simp
  · simp only
    split
    · simp
    · split
      · simp
      · assumption

theorem Join_ne_nil {a : GoString} (b : GoString) (h : a ≠ []) : Join a b ≠ [] := by
  unfold Join
  rw [if_pos h]
  exact Clean_ne_nil _

theorem runEvents_append {σ : Type} (g h : GoString → σ → σ) (a b : List (GoString × Option Error)) :
    ∀ s, runEvents g h (a ++ b) s =
      match runEvents g h a s with
      | (s1, .ok ()) => runEvents g h b s1
      | r => r := by
  induction a with
  | nil => intro s; simp [runEvents]
  | cons ev rest ih =>
    intro s
    obtain ⟨p, oe⟩ := ev
    cases oe with
    | none => simp only [List.cons_append, runEvents]; exact ih _
    | some e => simp [runEvents]

theorem runEvents_error_mem {σ : Type} (g h : GoString → σ → σ) (a : List (GoString × Option Error)) :
    ∀ s s1 e, runEvents g h a s = (s1, .error e) → ∃ p, (p, some e) ∈ a := by
  induction a with
  | nil => intro s s1 e hr; simp [runEvents] at hr
  | cons ev rest ih =>
    intro s s1 e hr
    obtain ⟨p, oe⟩ := ev
    cases oe with
    | none =>
      simp only [runEvents] at hr
      obtain ⟨q, hq⟩ := ih _ _ _ hr
      exact ⟨q, List.mem_cons_of_mem _ hq⟩
    | some e1 =>
      simp only [runEvents, Prod.mk.injEq, Outcome.error.injEq] at hr
      exact ⟨p, by rw [hr.2]; exact List.mem_cons_self _ _⟩

theorem runEvents_ne_panic {σ : Type} (g h : GoString → σ → σ) (a : List (GoString × Option Error)) :
    ∀ s s1, runEvents g h a s ≠ (s1, .panic) := by
  induction a with
  | nil => intro s s1 hr; simp [runEvents] at hr
  | cons ev rest ih =>
    intro s s1 hr
    obtain ⟨p, oe⟩ := ev
    cases oe with
    | none => simp only [runEvents] at hr; exact ih _ _ hr
    | some e1 => simp [runEvents] at hr

mutual
theorem walk_eq_runEvents {σ : Type} (fn : WalkFunc σ) (g h : GoString → σ → σ)
    (hfn : Relays fn g h) (path : GoString) (hpath : path ≠ []) (info : FileInfo) :
    ∀ (node : FsNode) (s : σ),
      (∀ p e, (p, some e) ∈ node.events path info.isDir → e ≠ Error.SkipDir) →
      walk fn path info node s = runEvents g h (node.events path info.isDir) s
  | .mk readDirNames, s, hs => by
    unfold walk FsNode.events
    cases hd : info.isDir with
    | false => simp [runEvents, (hfn path hpath (some info) s).1]
    | true =>
      cases readDirNames with
      | error err => simp [runEvents, (hfn path hpath (some info) s).2]
      | ok names =>
        have hs1 : ∀ p e, (p, some e) ∈ names.events path → e ≠ Error.SkipDir := by
          intro p e hp
          apply hs p e
          unfold FsNode.events
          simp [hd, hp]
        simp only [Bool.not_true, Bool.false_eq_true, if_false, (hfn path hpath (some info) s).1,
          runEvents]
        exact walkNames_eq_runEvents fn g h hfn path hpath names (g path s) hs1
theorem walkNames_eq_runEvents {σ : Type} (fn : WalkFunc σ) (g h : GoString → σ → σ)
    (hfn : Relays fn g h) (path : GoString) (hpath : path ≠ []) :
    ∀ (names : FsList) (s : σ),
      (∀ p e, (p, some e) ∈ names.events path → e ≠ Error.SkipDir) →
      walkNames fn path names s = runEvents g h (names.events path) s
  | .nil, s, _ => by simp [walkNames, FsList.events, runEvents]
  | .cons name (.error err) node rest, s, hs => by
    have hne : err ≠ Error.SkipDir := hs (Join path name) err (by simp [FsList.events])
    simp [walkNames, FsList.events, runEvents, (hfn _ (Join_ne_nil name hpath) none s).2, hne]
  | .cons name (.ok fileInfo) node rest, s, hs => by
    have hs1 : ∀ p e, (p, some e) ∈ node.events (Join path name) fileInfo.isDir →
        e ≠ Error.SkipDir := by
      intro p e hp; apply hs p e; simp [FsList.events, hp]
    have hs2 : ∀ p e, (p, some e) ∈ rest.events path → e ≠ Error.SkipDir := by
      intro p e hp; apply hs p e; simp [FsList.events, hp]
    have h1 := walk_eq_runEvents fn g h hfn (Join path name) (Join_ne_nil name hpath) fileInfo
      node s hs1
    have h2 := fun s1 => walkNames_eq_runEvents fn g h hfn path hpath rest s1 hs2
    simp only [walkNames, FsList.events, runEvents_append, h1]
    cases hr : runEvents g h (node.events (Join path name) fileInfo.isDir) s with
    | mk s1 r =>
      cases r with
      | ok u => cases u; simp only; exact h2 s1
      | panic => exact absurd hr (runEvents_ne_panic g h _ s s1)
      | error e =>
        obtain ⟨p, hp⟩ := runEvents_error_mem g h _ s s1 e hr
        have hne : e ≠ Error.SkipDir := hs1 p e hp
        simp [hne]
end

theorem emission_ne_nil_iff (a : Bool) (path : GoString) :
    emission a path ≠ [] ↔ (a || path.head? != some 46) = true := by
  have hsp : str "  " = [32, 32] := by decide
  unfold emission
  cases h : (a || path.head? != some 46)
  · simp
  · simp [hsp]

theorem walkCallback_relays (l : LS) :
    Relays (walkCallback l) (fun p s => s ++ emission l.A p) (fun _ s => s) := by
  intro path hpath info s
  refine ⟨?_, fun e => rfl⟩
  cases path with
  | nil => exact absurd rfl hpath
  | cons c cs =>
    cases hA : l.A with
    | true => simp [walkCallback, isHiddenPath, emission, hA]
    | false =>
      by_cases hc : c = 46
      · simp [walkCallback, isHiddenPath, emission, hA, hc, dotCharacter]
      · have hb : (c == 46) = false := by simp [hc]
        simp [walkCallback, isHiddenPath, emission, hA, hb, hc, dotCharacter]

theorem traced_relays (l : LS) :
    Relays (traced (walkCallback l))
      (fun p s => (s.1 ++ [(p, l.A || p.head? != some 46)], s.2 ++ emission l.A p))
      (fun p s => (s.1 ++ [(p, false)], s.2)) := by
  intro path hpath info s
  have h := walkCallback_relays l path hpath info s.2
  constructor
  · simp only [traced, h.1]
    have hd : decide (s.2 ++ emission l.A path ≠ s.2) = (l.A || path.head? != some 46) := by
      have := emission_ne_nil_iff l.A path
      cases hv : (l.A || path.head? != some 46)
      · rw [hv] at this
        have he : emission l.A path = [] := by
          by_contra hne; exact absurd (this.mp hne) (by simp)
        simp [he]
      · rw [hv] at this
        have he : emission l.A path ≠ [] := this.mpr rfl
        simp [he]
    rw [hd]
  · intro e
    simp [traced, h.2 e]

theorem Walk_eq_runEvents {σ : Type} (w : World) (fn : WalkFunc σ) (g h : GoString → σ → σ)
    (hfn : Relays fn g h) (root : GoString) (hroot : root ≠ [])
    (hs : ∀ p e, (p, some e) ∈ w.events root → ∃ code, e = Error.errno code) (s : σ) :
    Walk w root fn s = runEvents g h (w.events root) s := by
  unfold Walk
  unfold World.events at hs ⊢
  cases hl : w.lstat root with
  | error err =>
    rw [hl] at hs
    obtain ⟨code, rfl⟩ := hs root err (by simp)
    simp [runEvents, (hfn root hroot none s).2]
  | ok info =>
    rw [hl] at hs
    simp only at hs ⊢
    have hsd : ∀ p e, (p, some e) ∈ (w.tree root).events root info.isDir → e ≠ Error.SkipDir := by
      intro p e hp; obtain ⟨code, rfl⟩ := hs p e hp; simp
    rw [walk_eq_runEvents fn g h hfn root hroot info (w.tree root) s hsd]
    cases hr : runEvents g h ((w.tree root).events root info.isDir) s with
    | mk s1 r =>
      cases r with
      | ok u => rfl
      | panic => rfl
      | error e =>
        obtain ⟨p, hp⟩ := runEvents_error_mem g h _ s s1 e hr
        obtain ⟨code, rfl⟩ := hs p e hp
        simp

theorem runEvents_readable {σ : Type} (g h : GoString → σ → σ)
    (evs : List (GoString × Option Error)) :
    ∀ s, (∀ ev ∈ evs, ev.2 = none) →
      runEvents g h evs s = (evs.foldl (fun s ev => g ev.1 s) s, .ok ()) := by
  induction evs with
  | nil => intro s _; rfl
  | cons ev rest ih =>
    intro s hev
    obtain ⟨p, oe⟩ := ev
    have h0 : oe = none := hev (p, oe) (List.mem_cons_self _ _)
    subst h0
    simp only [runEvents, List.foldl_cons]
    exact ih _ (fun ev1 h1 => hev ev1 (List.mem_cons_of_mem _ h1))

theorem runEvents_first_error {σ : Type} (g h : GoString → σ → σ)
    (pre post : List (GoString × Option Error)) (p : GoString) (e : Error) :
    ∀ s, (∀ ev ∈ pre, ev.2 = none) →
      runEvents g h (pre ++ (p, some e) :: post) s
        = (h p (pre.foldl (fun s ev => g ev.1 s) s), .error e) := by
  induction pre with
  | nil => intro s _; rfl
  | cons ev rest ih =>
    intro s hev
    obtain ⟨q, oe⟩ := ev
    have h0 : oe = none := hev (q, oe) (List.mem_cons_self _ _)
    subst h0
    simp only [List.cons_append, runEvents, List.foldl_cons]
    exact ih _ (fun ev1 h1 => hev ev1 (List.mem_cons_of_mem _ h1))

theorem foldl_emission (a : Bool) (evs : List (GoString × Option Error)) :
    ∀ s : GoString, evs.foldl (fun s ev => s ++ emission a ev.1) s
      = s ++ ((evs.map Prod.fst).filter (fun p => a || p.head? != some 46)).flatMap
          (fun p => p ++ str "  ") := by
  induction evs with
  | nil => intro s; simp
  | cons ev rest ih =>
    intro s
    rw [List.foldl_cons, ih]
    cases hv : (a || ev.1.head? != some 46)
    · simp [emission, hv, List.filter_cons]
    · simp [emission, hv, List.filter_cons]

theorem foldl_traced (a : Bool) (evs : List (GoString × Option Error)) :
    ∀ s : List (GoString × Bool) × GoString,
      evs.foldl (fun s ev =>
          (s.1 ++ [(ev.1, a || ev.1.head? != some 46)], s.2 ++ emission a ev.1)) s
        = (s.1 ++ evs.map (fun ev => (ev.1, a || ev.1.head? != some 46)),
           evs.foldl (fun s ev => s ++ emission a ev.1) s.2) := by
  induction evs with
  | nil => intro s; simp
  | cons ev rest ih =>
    intro s
    rw [List.foldl_cons, ih]
    simp

theorem errno_of_readable {evs : List (GoString × Option Error)}
    (hread : ∀ ev ∈ evs, ev.2 = none) :
    ∀ p e, (p, some e) ∈ evs → ∃ code, e = Error.errno code := by
  intro p e hp
  have := hread (p, some e) hp
  simp at this

theorem listDirRecursively_readable (w : World) (l : LS) (hdir : l.Dir ≠ [])
    (hread : ∀ ev ∈ w.events l.Dir, ev.2 = none) :
    listDirRecursively w l
      = ((((w.events l.Dir).map Prod.fst).filter (fun p => l.A || p.head? != some 46)).flatMap
          (fun p => p ++ str "  "), .ok ()) := by
  unfold listDirRecursively
  rw [Walk_eq_runEvents w _ _ _ (walkCallback_relays l) l.Dir hdir (errno_of_readable hread),
    runEvents_readable _ _ _ _ hread, foldl_emission]
  simp

theorem tracedWalk_readable (w : World) (l : LS) (hdir : l.Dir ≠ [])
    (hread : ∀ ev ∈ w.events l.Dir, ev.2 = none) :
    (Walk w l.Dir (traced (walkCallback l)) ([], [])).1.1
      = (w.events l.Dir).map (fun ev => (ev.1, l.A || ev.1.head? != some 46)) := by
  rw [Walk_eq_runEvents w _ _ _ (traced_relays l) l.Dir hdir (errno_of_readable hread),
    runEvents_readable _ _ _ _ hread, foldl_traced]
  simp

theorem visitedPaths_readable (w : World) (l : LS) (hdir : l.Dir ≠ [])
    (hread : ∀ ev ∈ w.events l.Dir, ev.2 = none) :
    visitedPaths w l = (w.events l.Dir).map Prod.fst := by
  unfold visitedPaths
  rw [tracedWalk_readable w l hdir hread, List.map_map]
  rfl

theorem filter_snd_map (a : Bool) (ps : List (GoString × Option Error)) :
    ((ps.map (fun ev => (ev.1, a || ev.1.head? != some 46))).filter Prod.snd).map Prod.fst
      = (ps.map Prod.fst).filter (fun p => a || p.head? != some 46) := by
  induction ps with
  | nil => rfl
  | cons ev rest ih =>
    simp only [List.map_cons, List.filter_cons]
    cases hv : (a || ev.1.head? != some 46) <;> simp [ih]

theorem emittedPaths_readable (w : World) (l : LS) (hdir : l.Dir ≠ [])
    (hread : ∀ ev ∈ w.events l.Dir, ev.2 = none) :
    emittedPaths w l
      = ((w.events l.Dir).map Prod.fst).filter (fun p => l.A || p.head? != some 46) := by
  unfold emittedPaths
  rw [tracedWalk_readable w l hdir hread, filter_snd_map]

theorem listDirRecursively_first_error (w : World) (l : LS) (hdir : l.Dir ≠ [])
    (hs : ∀ p e, (p, some e) ∈ w.events l.Dir → ∃ code, e = Error.errno code)
    (pre post : List (GoString × Option Error)) (p : GoString) (e : Error)
    (hev : w.events l.Dir = pre ++ (p, some e) :: post) (hpre : ∀ ev ∈ pre, ev.2 = none) :
    listDirRecursively w l
      = (((pre.map Prod.fst).filter (fun p => l.A || p.head? != some 46)).flatMap
          (fun p => p ++ str "  "), .error e) := by
  unfold listDirRecursively
  rw [Walk_eq_runEvents w _ _ _ (walkCallback_relays l) l.Dir hdir hs, hev,
    runEvents_first_error _ _ _ _ _ _ _ hpre, foldl_emission]
  simp

theorem tracedWalk_first_error (w : World) (l : LS) (hdir : l.Dir ≠ [])
    (hs : ∀ p e, (p, some e) ∈ w.events l.Dir → ∃ code, e = Error.errno code)
    (pre post : List (GoString × Option Error)) (p : GoString) (e : Error)
    (hev : w.events l.Dir = pre ++ (p, some e) :: post) (hpre : ∀ ev ∈ pre, ev.2 = none) :
    (Walk w l.Dir (traced (walkCallback l)) ([], [])).1.1
      = pre.map (fun ev => (ev.1, l.A || ev.1.head? != some 46)) ++ [(p, false)] := by
  rw [Walk_eq_runEvents w _ _ _ (traced_relays l) l.Dir hdir hs, hev,
    runEvents_first_error _ _ _ _ _ _ _ hpre, foldl_traced]
  simp

theorem trimSuffixSlash_concat (t : GoString) : trimSuffixSlash (t ++ [47]) = t := by
  unfold trimSuffixSlash
  simp

theorem trimSuffixSlash_of_no_slash {s : GoString} (h : s.getLast? ≠ some 47) :
    trimSuffixSlash s = s := by
  unfold trimSuffixSlash
  rw [if_neg h]

theorem eq_concat_of_getLast? {s : GoString} (h : s.getLast? = some 47) :
    s = s.dropLast ++ [47] := by
  exact (List.dropLast_append_getLast? 47 (Option.mem_def.mpr h)).symm

/-! ## The claims on the structure printer and the recursive walk -/

/-- C11: when `os.Stat` of the target succeeds, `showDirStructure` returns nil
and writes one line ended by a newline: for a target `t/` the line is `t/` if it
is a directory and `t` if not; for a target without trailing slash the line is
the target followed by `/` if it is a directory and the target itself if not.
So a directory target that ends in `/` is printed unchanged. -/
theorem showDirStructure_line (w : World) (l : LS) (file : FileInfo)
    (hstat : w.stat l.Dir = .ok file) :
    (∀ t, l.Dir = t ++ str "/" →
      showDirStructure w l
        = ((if file.isDir then t ++ str "/" else t) ++ str "\n", .ok ())) ∧
    (l.Dir.getLast? ≠ some 47 →
      showDirStructure w l
        = ((if file.isDir then l.Dir ++ str "/" else l.Dir) ++ str "\n", .ok ())) ∧
    (file.isDir = true → l.Dir.getLast? = some 47 →
      showDirStructure w l = (l.Dir ++ str "\n", .ok ())) := by
  have hsl : str "/" = [47] := by decide
  have hform : showDirStructure w l
      = ((if file.isDir then trimSuffixSlash l.Dir ++ str "/" else trimSuffixSlash l.Dir)
          ++ str "\n", .ok ()) := by
    unfold showDirStructure
    rw [hstat]
  refine ⟨?_, ?_, ?_⟩
  · intro t ht
    rw [hform, ht, hsl, trimSuffixSlash_concat]
  · intro hno
    rw [hform, trimSuffixSlash_of_no_slash hno]
  · intro hd hlast
    rw [hform, hd, if_pos rfl, hsl]
    conv_rhs => rw [eq_concat_of_getLast? hlast]
    rw [eq_concat_of_getLast? hlast, trimSuffixSlash_concat]
    simp

theorem showDirStructure_line_witness :
    showDirStructure fooBarWorld (lsDir "foo/") = (str "foo/\n", .ok ()) ∧
    showDirStructure fooBarWorld (lsDir "foo") = (str "foo/\n", .ok ()) ∧
    showDirStructure fooBarWorld (lsDir "bar") = (str "bar\n", .ok ()) :=
  ⟨(showDirStructure_line fooBarWorld (lsDir "foo/") (mkInfo "foo" true 3000 utc) rfl).1
      (str "foo") rfl,
   (showDirStructure_line fooBarWorld (lsDir "foo") (mkInfo "foo" true 3000 utc) rfl).2.1
      (by decide),
   (showDirStructure_line fooBarWorld (lsDir "bar") (mkInfo "bar" false 3000 utc) rfl).2.1
      (by decide)⟩

/-- C12 (the code breaks it): walking the root `d`, which holds the hidden
directory `.git` with the file `config`, with `A` not set, the walk tests the
first byte of the walked path `d/.git`, not of the name `.git`, and writes both
`d/.git` and `d/.git/config` to the output. -/
theorem walk_emits_hidden_below_root :
    listDirRecursively (gitWorld "d") (lsWalk false "d")
      = (str "d  d/.git  d/.git/config  d/a.txt  ", .ok ()) ∧
    str "d/.git" ∈ emittedPaths (gitWorld "d") (lsWalk false "d") ∧
    str "d/.git/config" ∈ emittedPaths (gitWorld "d") (lsWalk false "d") :=
  ⟨by decide, by decide, by decide⟩

/-- C13 (the code breaks it): with `A` not set the one-level listing of `d`
skips the child `.git`, yet the walk from `d` emits `d/.git`; and the one-level
listing of `..` shows the child `a.txt`, yet the walk from `..` emits nothing,
`../a.txt` included. The walk decides on the walked path, the listing on the name. -/
theorem walk_filter_differs_from_listing :
    isHiddenPath (str ".git") false = some true ∧
    isHiddenPath (Join (str "d") (str ".git")) false = some false ∧
    nonRecursiveEntries (gitWorld "d") (lsOn false false false)
      = .ok [⟨str "d/a.txt", mkInfo "a.txt" false 1704103200 utc⟩] ∧
    emittedPaths (gitWorld "d") (lsWalk false "d")
      = [str "d", str "d/.git", str "d/.git/config", str "d/a.txt"] ∧
    isHiddenPath (str "a.txt") false = some false ∧
    isHiddenPath (Join (str "..") (str "a.txt")) false = some true ∧
    nonRecursiveEntries (gitWorld "..") { lsOn false false false with Dir := str ".." }
      = .ok [⟨str "../a.txt", mkInfo "a.txt" false 1704103200 utc⟩] ∧
    visitedPaths (gitWorld "..") (lsWalk false "..")
      = [str "..", str "../.git", str "../.git/config", str "../a.txt"] ∧
    emittedPaths (gitWorld "..") (lsWalk false "..") = [] :=
  ⟨by decide, by decide, by decide, by decide, by decide, by decide, by decide, by decide,
    by decide⟩

/-- C14: on a readable tree walked from a non-empty root, the callback returns
nil (no skip signal) at a path that begins with a period; the paths visited
with `A` not set are those visited with `A` set, namely the whole pre-order
traversal; and the paths emitted with `A` not set are a subsequence of those
emitted with `A` set. -/
theorem walk_never_prunes (w : World) (f : Flags) (dir : GoString) (hdir : dir ≠ [])
    (hread : ∀ ev ∈ w.events dir, ev.2 = none) :
    (∀ path info out, path.head? = some 46 →
      walkCallback ⟨{ f with A := false }, dir⟩ path info none out = (out, .ok ())) ∧
    visitedPaths w ⟨{ f with A := false }, dir⟩ = visitedPaths w ⟨{ f with A := true }, dir⟩ ∧
    visitedPaths w ⟨{ f with A := false }, dir⟩ = (w.events dir).map Prod.fst ∧
    (emittedPaths w ⟨{ f with A := false }, dir⟩).Sublist
      (emittedPaths w ⟨{ f with A := true }, dir⟩) := by
  refine ⟨?_, ?_, ?_, ?_⟩
  · intro path info out hp
    cases path with
    | nil => simp at hp
    | cons c cs =>
      simp only [List.head?_cons, Option.some.injEq] at hp
      subst hp
      simp [walkCallback, isHiddenPath, dotCharacter]
  · rw [visitedPaths_readable w _ hdir hread, visitedPaths_readable w _ hdir hread]
  · rw [visitedPaths_readable w _ hdir hread]
  · rw [emittedPaths_readable w _ hdir hread, emittedPaths_readable w _ hdir hread]
    have hall : ((w.events dir).map Prod.fst).filter
        (fun p => (LS.mk { f with A := true } dir).A || p.head? != some 46)
        = (w.events dir).map Prod.fst := by
      rw [List.filter_eq_self]; intro p _; rfl
    rw [hall]
    exact List.filter_sublist _

theorem walk_never_prunes_witness :
    visitedPaths (gitWorld ".") ⟨{ (lsWalk false ".").toFlags with A := false }, str "."⟩
      = [str ".", str ".git", str ".git/config", str "a.txt"] ∧
    emittedPaths (gitWorld ".") ⟨{ (lsWalk false ".").toFlags with A := false }, str "."⟩
      = [str "a.txt"] ∧
    visitedPaths (gitWorld ".") ⟨{ (lsWalk false ".").toFlags with A := false }, str "."⟩
      = visitedPaths (gitWorld ".") ⟨{ (lsWalk false ".").toFlags with A := true }, str "."⟩ :=
  ⟨by decide, by decide,
    (walk_never_prunes (gitWorld ".") (lsWalk false ".").toFlags (str ".") (by decide)
      (by decide)).2.1⟩

/-- C15: when the target does not exist, so that `os.Stat`, `os.ReadDir` and
`os.Lstat` of it each fail with an error of the operating system, `ListDir`
returns such an error and writes nothing, whatever the flags and whatever
`display` would do. -/
theorem ListDir_missing_directory (display : LS → List Dir → Run) (w : World) (l : LS)
    (c1 c2 c3 : Nat)
    (hstat : w.stat l.Dir = .error (.errno c1))
    (hread : w.readDir l.Dir = .error (.errno c2))
    (hlstat : w.lstat l.Dir = .error (.errno c3)) :
    ∃ code, ListDir display w l = ([], .error (.errno code)) := by
  unfold ListDir
  cases hD : l.D with
  | true =>
    refine ⟨c1, ?_⟩
    simp [showDirStructure, hstat]
  | false =>
    cases hR : l.R with
    | true =>
      refine ⟨c3, ?_⟩
      simp [listDirRecursively, Walk, hlstat, walkCallback]
    | false =>
      refine ⟨c2, ?_⟩
      simp [nonRecursiveListing, nonRecursiveEntries, collected, hread]

theorem ListDir_missing_directory_witness :
    ∃ code, ListDir (fun _ d => (d.flatMap Dir.Path, .ok ())) (listingWorld sampleEntries utc)
      (lsWalk true "nope") = ([], .error (.errno code)) :=
  ListDir_missing_directory (fun _ d => (d.flatMap Dir.Path, .ok ()))
    (listingWorld sampleEntries utc) (lsWalk true "nope") 2 2 2 rfl rfl rfl

/-- C17, counterexample: walking `d`, which holds `a.txt`, then the unreadable
name `b`, then `c.txt`, the walk fails with the error of `d/b`, yet `d` and
`d/a.txt` have already been written to the output. -/
theorem walk_writes_before_failing :
    brokenWorld.events (str "d")
      = [(str "d", none), (str "d/a.txt", none), (str "d/b", some (.errno 13)),
         (str "d/c.txt", none)] ∧
    listDirRecursively brokenWorld (lsWalk false "d")
      = (str "d  d/a.txt  ", .error (.errno 13)) ∧
    (listDirRecursively brokenWorld (lsWalk false "d")).1 ≠ [] :=
  ⟨by decide, by decide, by decide⟩

/-- C17, amended: when the first unreadable path of the pre-order traversal is
`p` with error `e`, `listDirRecursively` returns `e` unchanged; the callback is
called on the paths before `p` and on `p`, and on none after it; the emitted
paths are the emitted ones among the paths before `p`; what has been written to
the output when it fails is exactly those paths, each followed by two spaces;
so the output is empty exactly when no path before `p` is emitted (as when the
root itself is unreadable), and is a partial result otherwise. -/
theorem walk_stops_at_first_error (w : World) (l : LS) (hdir : l.Dir ≠ [])
    (hs : ∀ p e, (p, some e) ∈ w.events l.Dir → ∃ code, e = Error.errno code)
    (pre post : List (GoString × Option Error)) (p : GoString) (e : Error)
    (hev : w.events l.Dir = pre ++ (p, some e) :: post) (hpre : ∀ ev ∈ pre, ev.2 = none) :
    listDirRecursively w l
      = ((emittedPaths w l).flatMap (fun q => q ++ str "  "), .error e) ∧
    visitedPaths w l = pre.map Prod.fst ++ [p] ∧
    emittedPaths w l = (pre.map Prod.fst).filter (fun q => l.A || q.head? != some 46) ∧
    ((listDirRecursively w l).1 = [] ↔
      ∀ q ∈ pre.map Prod.fst, (l.A || q.head? != some 46) = false) := by
  have hem : emittedPaths w l
      = (pre.map Prod.fst).filter (fun q => l.A || q.head? != some 46) := by
    unfold emittedPaths
    rw [tracedWalk_first_error w l hdir hs pre post p e hev hpre, List.filter_append,
      List.map_append, filter_snd_map]
    simp
  have hout : listDirRecursively w l
      = ((emittedPaths w l).flatMap (fun q => q ++ str "  "), .error e) := by
    rw [hem]
    exact listDirRecursively_first_error w l hdir hs pre post p e hev hpre
  refine ⟨hout, ?_, hem, ?_⟩
  · unfold visitedPaths
    rw [tracedWalk_first_error w l hdir hs pre post p e hev hpre, List.map_append, List.map_map]
    rfl
  · have hsp : str "  " = [32, 32] := by decide
    rw [hout, hem, hsp]
    simp only [List.flatMap_eq_nil_iff, List.mem_filter, List.append_eq_nil, and_imp]
    constructor
    · intro h q hq
      cases hv : (l.A || q.head? != some 46)
      · rfl
      · exact absurd (h q hq hv).2 (by simp)
    · intro h q hq hv
      rw [h q hq] at hv
      cases hv

theorem walk_stops_at_first_error_witness :
    listDirRecursively brokenWorld (lsWalk false "d")
      = ((emittedPaths brokenWorld (lsWalk false "d")).flatMap (fun q => q ++ str "  "),
          .error (.errno 13)) ∧
    visitedPaths brokenWorld (lsWalk false "d")
      = [(str "d", (none : Option Error)), (str "d/a.txt", none)].map Prod.fst ++ [str "d/b"] ∧
    emittedPaths brokenWorld (lsWalk false "d")
      = ([(str "d", (none : Option Error)), (str "d/a.txt", none)].map Prod.fst).filter
          (fun q => (lsWalk false "d").A || q.head? != some 46) ∧
    ((listDirRecursively brokenWorld (lsWalk false "d")).1 = [] ↔
      ∀ q ∈ [(str "d", (none : Option Error)), (str "d/a.txt", none)].map Prod.fst,
        ((lsWalk false "d").A || q.head? != some 46) = false) :=
  walk_stops_at_first_error brokenWorld (lsWalk false "d") (by decide)
    (by
      intro p e hp
      have hev : brokenWorld.events (lsWalk false "d").Dir
          = [(str "d", none), (str "d/a.txt", none), (str "d/b", some (.errno 13)),
             (str "d/c.txt", none)] := by decide
      rw [hev] at hp
      simp only [List.mem_cons, Prod.mk.injEq, List.mem_singleton, reduceCtorEq, and_false,
        false_or, or_false, List.not_mem_nil, Option.some.injEq] at hp
      exact ⟨13, hp.2⟩)
    [(str "d", none), (str "d/a.txt", none)] [(str "d/c.txt", none)] (str "d/b") (.errno 13)
    (by decide) (by decide)

/-- C19: on a readable tree walked from a non-empty root, `listDirRecursively`
returns nil and writes the emitted paths in visit order, each followed by two
spaces and nothing else (no newline unless a path holds one); the visited paths
are the pre-order traversal; with `A` set every visited path is emitted, and
with `A` not set a visited path is emitted exactly when the first byte of the
walked path is not a period. -/
theorem walk_output (w : World) (l : LS) (hdir : l.Dir ≠ [])
    (hread : ∀ ev ∈ w.events l.Dir, ev.2 = none) :
    listDirRecursively w l = ((emittedPaths w l).flatMap (fun p => p ++ str "  "), .ok ()) ∧
    visitedPaths w l = (w.events l.Dir).map Prod.fst ∧
    emittedPaths w l = (visitedPaths w l).filter (fun p => l.A || p.head? != some 46) ∧
    (l.A = true → emittedPaths w l = visitedPaths w l) ∧
    (l.A = false → ∀ p ∈ visitedPaths w l, (p ∈ emittedPaths w l ↔ p.head? ≠ some 46)) ∧
    ((∀ p ∈ visitedPaths w l, (10 : UInt8) ∉ p) → (10 : UInt8) ∉ (listDirRecursively w l).1) := by
  have hvis := visitedPaths_readable w l hdir hread
  have hem := emittedPaths_readable w l hdir hread
  have hout := listDirRecursively_readable w l hdir hread
  rw [← hem] at hout
  rw [← hvis] at hem
  refine ⟨hout, hvis, hem, ?_, ?_, ?_⟩
  · intro hA
    rw [hem, List.filter_eq_self]
    intro p _; simp [hA]
  · intro hA p hp
    rw [hem, List.mem_filter]
    simp [hA, hp]
  · intro hnl
    rw [hout]
    simp only [List.mem_flatMap, List.mem_append, not_exists, not_and, not_or]
    intro p hp
    have hpv : p ∈ visitedPaths w l := by
      rw [hem] at hp; exact (List.mem_filter.mp hp).1
    have hsp : str "  " = [32, 32] := by decide
    refine ⟨hnl p hpv, ?_⟩
    rw [hsp]
    decide

theorem walk_output_witness :
    listDirRecursively (gitWorld ".") (lsWalk false ".")
      = ((emittedPaths (gitWorld ".") (lsWalk false ".")).flatMap (fun p => p ++ str "  "),
          .ok ()) ∧
    visitedPaths (gitWorld ".") (lsWalk false ".")
      = [str ".", str ".git", str ".git/config", str "a.txt"] ∧
    emittedPaths (gitWorld ".") (lsWalk false ".") = [str "a.txt"] ∧
    listDirRecursively (gitWorld ".") (lsWalk false ".") = (str "a.txt  ", .ok ()) :=
  ⟨(walk_output (gitWorld ".") (lsWalk false ".") (by decide) (by decide)).1,
    by decide, by decide, by decide⟩

/-! ## Lemmas on the order of strings and the time-ordering step -/

theorem u8_lt_iff (a b : UInt8) : a < b ↔ a.toNat < b.toNat := Iff.rfl

theorem u8_eq_of_not_lt {a b : UInt8} (h1 : ¬ a < b) (h2 : ¬ b < a) : a = b := by
  rw [u8_lt_iff] at h1 h2
  exact UInt8.ext (by omega)

theorem strLess_cons (a b : UInt8) (as bs : GoString) :
    strLess (a :: as) (b :: bs) = if a < b then true else if b < a then false else strLess as bs :=
  rfl

theorem strLess_irrefl (a : GoString) : strLess a a = false := by
  induction a with
  | nil => rfl
  | cons x xs ih =>
    rw [strLess_cons]
    have : ¬ x < x := by rw [u8_lt_iff]; omega
    simp [this, ih]

theorem strLess_asymm : ∀ (a b : GoString), strLess a b = true → strLess b a = false := by
  intro a
  induction a with
  | nil => intro b h; cases b <;> simp_all [strLess]
  | cons x xs ih =>
    intro b h
    cases b with
    | nil => simp [strLess] at h
    | cons y ys =>
      rw [strLess_cons] at h ⊢
      by_cases h1 : x < y
      · have h2 : ¬ y < x := by rw [u8_lt_iff] at h1 ⊢; omega
        simp [h2, h1]
      · by_cases h2 : y < x
        · simp [h1, h2] at h
        · simp only [h1, h2, if_false] at h ⊢
          exact ih ys h

theorem strLess_connected : ∀ (a b : GoString),
    strLess a b = false → strLess b a = false → a = b := by
  intro a
  induction a with
  | nil => intro b h1 h2; cases b <;> simp_all [strLess]
  | cons x xs ih =>
    intro b h1 h2
    cases b with
    | nil => simp [strLess] at h2
    | cons y ys =>
      rw [strLess_cons] at h1 h2
      by_cases hxy : x < y
      · simp [hxy] at h1
      · by_cases hyx : y < x
        · simp [hyx] at h2
        · simp only [hxy, hyx, if_false] at h1 h2
          rw [u8_eq_of_not_lt hxy hyx, ih ys h1 h2]

theorem strLess_ge_trans : ∀ (a b c : GoString),
    strLess a b = false → strLess b c = false → strLess a c = false := by
  intro a
  induction a with
  | nil =>
    intro b c h1 h2
    cases b with
    | nil => exact h2
    | cons y ys => simp [strLess] at h1
  | cons x xs ih =>
    intro b c h1 h2
    cases c with
    | nil => rfl
    | cons z zs =>
      cases b with
      | nil => simp [strLess] at h2
      | cons y ys =>
        rw [strLess_cons] at h1 h2 ⊢
        by_cases hxy : x < y
        · simp [hxy] at h1
        · by_cases hyz : y < z
          · simp [hyz] at h2
          · simp only [hxy, hyz, if_false] at h1 h2
            have hxz : ¬ x < z := by rw [u8_lt_iff] at hxy hyz ⊢; omega
            simp only [hxz, if_false]
            by_cases hzx : z < x
            · simp [hzx]
            · simp only [hzx, if_false]
              have hyx : ¬ y < x := by rw [u8_lt_iff] at hxy hyz hzx ⊢; omega
              have hzy : ¬ z < y := by rw [u8_lt_iff] at hxy hyz hzx ⊢; omega
              simp only [hyx, hzy, if_false] at h1 h2
              exact ih ys zs h1 h2

theorem sortReverse_perm (x : List GoString) : (sortReverse x).Perm x :=
  List.perm_insertionSort _ x

theorem sortReverse_sorted (x : List GoString) :
    (sortReverse x).Pairwise (fun a b => strLess a b = false) := by
  haveI : IsTotal GoString (fun a b => strLess a b = false) :=
    ⟨fun a b => by
      cases h : strLess a b
      · exact Or.inl rfl
      · exact Or.inr (strLess_asymm a b h)⟩
  haveI : IsTrans GoString (fun a b => strLess a b = false) :=
    ⟨fun a b c => strLess_ge_trans a b c⟩
  exact List.sorted_insertionSort _ x

theorem sortReverse_strict (x : List GoString) (hx : x.Nodup) :
    (sortReverse x).Pairwise (fun a b => strLess b a = true) := by
  have hnd : (sortReverse x).Nodup := (sortReverse_perm x).nodup_iff.mpr hx
  have hs := sortReverse_sorted x
  have hboth := hs.and hnd
  refine hboth.imp ?_
  intro a b hab
  obtain ⟨h1, h2⟩ := hab
  cases h : strLess b a
  · exact absurd (strLess_connected a b h1 h) h2
  · rfl

theorem collectEntries_split (dir : GoString) (a : Bool) (es : List DirEntry) :
    ∀ (d0 : List Dir) (m0 : List GoString) (d : List Dir) (m : List GoString),
      collectEntries dir a es d0 m0 = .ok (d, m) →
      ∃ xs, d = d0 ++ xs ∧ m = m0 ++ xs.map renderedTime := by
  induction es with
  | nil =>
    intro d0 m0 d m h
    simp only [collectEntries, Outcome.ok.injEq, Prod.mk.injEq] at h
    exact ⟨[], by simp [h.1], by simp [h.2]⟩
  | cons e es ih =>
    intro d0 m0 d m h
    simp only [collectEntries] at h
    cases hh : isHiddenPath e.name a with
    | none => rw [hh] at h; cases h
    | some b =>
      rw [hh] at h
      cases b with
      | true => exact ih d0 m0 d m h
      | false =>
        simp only at h
        cases hi : e.info with
        | error err => rw [hi] at h; cases h
        | ok info =>
          rw [hi] at h
          obtain ⟨xs, h1, h2⟩ := ih _ _ d m h
          refine ⟨⟨Join dir info.name, info⟩ :: xs, ?_, ?_⟩
          · rw [h1]; simp
          · rw [h2]; simp

theorem collected_split {w : World} {l : LS} {d : List Dir} {m : List GoString}
    (hc : collected w l = .ok (d, m)) :
    m = (realChildren l d).map renderedTime ∧
    d = pseudoEntries l d ++ realChildren l d ∧
    (pseudoEntries l d).map Dir.Path = (if l.A then dotFiles else []) := by
  unfold collected at hc
  cases hr : w.readDir l.Dir with
  | error err => rw [hr] at hc; cases hc
  | ok dirs =>
    rw [hr] at hc
    simp only at hc
    cases hA : l.A with
    | false =>
      rw [hA] at hc
      simp only [Bool.false_eq_true, if_false] at hc
      obtain ⟨xs, h1, h2⟩ := collectEntries_split _ _ _ _ _ _ _ hc
      simp only [List.nil_append] at h1 h2
      subst h1
      simp [realChildren, pseudoEntries, hA, h2]
    | true =>
      rw [hA] at hc
      simp only [if_true] at hc
      cases hs : statDotFiles w dotFiles [] with
      | error err => rw [hs] at hc; cases hc
      | panic => rw [hs] at hc; cases hc
      | ok d0 =>
        rw [hs] at hc
        simp only at hc
        obtain ⟨s1, s2, _, _, rfl⟩ := (statDotFiles_ok_iff w d0).mp hs
        obtain ⟨xs, h1, h2⟩ := collectEntries_split _ _ _ _ _ _ _ hc
        simp only [List.nil_append] at h2
        subst h1
        simp [realChildren, pseudoEntries, hA, h2, dotFiles]

theorem filter_time_of_not_mem {d : List Dir} {v : GoString} (h : v ∉ d.map renderedTime) :
    d.filter (fun x => decide (x.Info.modTime.String = v)) = [] := by
  rw [List.filter_eq_nil_iff]
  intro x hx
  have hmem : renderedTime x ∈ d.map renderedTime := List.mem_map_of_mem _ hx
  have hne : renderedTime x ≠ v := by
    intro hv
    rw [hv] at hmem
    exact h hmem
  simpa using hne

theorem filter_time_unique {d : List Dir} (hnd : (d.map renderedTime).Nodup) {x : Dir}
    (hx : x ∈ d) :
    d.filter (fun y => decide (y.Info.modTime.String = x.Info.modTime.String)) = [x] := by
  induction d with
  | nil => cases hx
  | cons y ys ih =>
    rw [List.map_cons, List.nodup_cons] at hnd
    rcases List.mem_cons.mp hx with rfl | hx1
    · rw [List.filter_cons]
      simp only [decide_True, if_true]
      rw [filter_time_of_not_mem hnd.1]
    · have hne : y.Info.modTime.String ≠ x.Info.modTime.String := by
        intro heq
        apply hnd.1
        have hmem : renderedTime x ∈ ys.map renderedTime := List.mem_map_of_mem _ hx1
        have heq1 : renderedTime y = renderedTime x := heq
        rw [heq1]
        exact hmem
      rw [List.filter_cons]
      simp only [hne, decide_False, Bool.false_eq_true, if_false]
      exact ih hnd.2 hx1

theorem timeOrdered_perm_of_nodup {d : List Dir} (hnd : (d.map renderedTime).Nodup) :
    (timeOrdered (d.map renderedTime) d).Perm d := by
  rw [timeOrdered_eq]
  have h1 := List.Perm.flatMap_right
    (fun v => d.filter (fun x => decide (x.Info.modTime.String = v)))
    (sortReverse_perm (d.map renderedTime))
  refine h1.trans ?_
  rw [List.flatMap_map]
  have h2 : d.flatMap (fun a => d.filter (fun x => decide (x.Info.modTime.String = renderedTime a)))
      = d.flatMap (fun a => [a]) :=
    List.flatMap_congr (fun x hx => filter_time_unique hnd hx)
  rw [h2, List.flatMap_singleton']

theorem timeOrdered_map_of_nodup {d : List Dir} (hnd : (d.map renderedTime).Nodup) :
    (timeOrdered (d.map renderedTime) d).map renderedTime = sortReverse (d.map renderedTime) := by
  rw [timeOrdered_eq, List.map_flatMap]
  have h2 : (sortReverse (d.map renderedTime)).flatMap
      (fun v => (d.filter (fun x => decide (x.Info.modTime.String = v))).map renderedTime)
      = (sortReverse (d.map renderedTime)).flatMap (fun v => [v]) := by
    apply List.flatMap_congr
    intro v hv
    have hv1 : v ∈ d.map renderedTime := (sortReverse_perm _).mem_iff.mp hv
    obtain ⟨x, hx, rfl⟩ := List.mem_map.mp hv1
    rw [filter_time_unique hnd hx]
    rfl
  rw [h2, List.flatMap_singleton']

theorem count_flatMap_filter_time (d : List Dir) (e : Dir) (vs : List GoString) :
    (vs.flatMap (fun v => d.filter (fun x => decide (x.Info.modTime.String = v)))).count e
      = d.count e * vs.countP (fun v => decide (v = renderedTime e)) := by
  induction vs with
  | nil => simp
  | cons v vs ih =>
    rw [List.flatMap_cons, List.count_append, ih, List.countP_cons]
    by_cases hv : e.Info.modTime.String = v
    · have hp : (fun x : Dir => decide (x.Info.modTime.String = v)) e = true := by simp [hv]
      rw [@List.count_filter Dir _ _ (fun x : Dir => decide (x.Info.modTime.String = v)) e d hp]
      have hb : decide (v = renderedTime e) = true := by
        have : v = renderedTime e := hv.symm
        simp [this]
      rw [if_pos hb, Nat.mul_add, Nat.mul_one, Nat.add_comm]
    · have hz : (d.filter (fun x => decide (x.Info.modTime.String = v))).count e = 0 := by
        apply List.count_eq_zero_of_not_mem
        intro hmem
        have := (List.mem_filter.mp hmem).2
        simp [hv] at this
      have hb : ¬ decide (v = renderedTime e) = true := by
        intro hb
        have : v = renderedTime e := by simpa using hb
        exact hv this.symm
      rw [hz, if_neg hb]
      simp

theorem count_timeOrdered (m : List GoString) (d : List Dir) (e : Dir) :
    (timeOrdered m d).count e = d.count e * m.countP (fun v => decide (v = renderedTime e)) := by
  rw [timeOrdered_eq, count_flatMap_filter_time, (sortReverse_perm m).countP_eq]

theorem countP_map_renderedTime (real : List Dir) (v : GoString) :
    (real.map renderedTime).countP (fun u => decide (u = v))
      = real.countP (fun c => decide (renderedTime c = v)) := by
  induction real with
  | nil => simp
  | cons c cs ih => rw [List.map_cons, List.countP_cons, List.countP_cons, ih]

theorem length_timeOrdered (m : List GoString) (d : List Dir) :
    (timeOrdered m d).length
      = (m.map (fun v => (d.filter (fun x => decide (x.Info.modTime.String = v))).length)).sum := by
  rw [timeOrdered_eq, List.length_flatMap]
  exact ((sortReverse_perm m).map _).sum_eq

theorem time_mem_of_mem_timeOrdered {m : List GoString} {d : List Dir} {e : Dir}
    (h : e ∈ timeOrdered m d) : renderedTime e ∈ m := by
  rw [timeOrdered_eq, List.mem_flatMap] at h
  obtain ⟨v, hv, he⟩ := h
  have hv1 : v ∈ m := (sortReverse_perm m).mem_iff.mp hv
  have he1 := (List.mem_filter.mp he).2
  have he2 : renderedTime e = v := by simpa using he1
  rw [he2]
  exact hv1

theorem collectEntries_first_error (dir : GoString) (a : Bool) (c : DirEntry)
    (post : List DirEntry) (e : Error)
    (hc : isHiddenPath c.name a = some false) (he : c.info = .error e) (pre : List DirEntry) :
    ∀ (d0 : List Dir) (m0 : List GoString),
      (∀ x ∈ pre, isHiddenPath x.name a = some true ∨
        (isHiddenPath x.name a = some false ∧ ∃ fi, x.info = .ok fi)) →
      collectEntries dir a (pre ++ c :: post) d0 m0 = .error e := by
  induction pre with
  | nil =>
    intro d0 m0 _
    simp [collectEntries, hc, he]
  | cons x xs ih =>
    intro d0 m0 hpre
    have hxs : ∀ y ∈ xs, isHiddenPath y.name a = some true ∨
        (isHiddenPath y.name a = some false ∧ ∃ fi, y.info = .ok fi) :=
      fun y hy => hpre y (List.mem_cons_of_mem _ hy)
    rcases hpre x (List.mem_cons_self _ _) with hx | ⟨hx, fi, hfi⟩
    · simp only [List.cons_append, collectEntries, hx]
      exact ih d0 m0 hxs
    · simp only [List.cons_append, collectEntries, hx, hfi]
      exact ih _ _ hxs

theorem collected_first_failure {w : World} {l : LS} {e : Error} (h : FirstFailure w l e) :
    collected w l = .error e := by
  have hdot : dotFiles = [str ".", str ".."] := rfl
  cases h with
  | readDir h => simp [collected, h]
  | statDot dirs hread hA h =>
    simp [collected, hread, hA, hdot, statDotFiles, h]
  | statDotDot dirs s1 hread hA h1 h =>
    simp [collected, hread, hA, hdot, statDotFiles, h1, h]
  | info pre post c hread hstat hpre hc h =>
    unfold collected
    rw [hread]
    simp only
    cases hA : l.A with
    | false =>
      rw [hA] at hpre hc
      simp only [Bool.false_eq_true, if_false]
      exact collectEntries_first_error l.Dir false c post e hc h pre [] [] hpre
    | true =>
      rw [hA] at hpre hc
      obtain ⟨s1, s2, h1, h2⟩ := hstat hA
      have hs := (statDotFiles_ok_iff w _).mpr ⟨s1, s2, h1, h2, rfl⟩
      simp only [if_true, hs]
      exact collectEntries_first_error l.Dir true c post e hc h pre _ [] hpre

theorem nonRecursiveEntries_of_collected_T {w : World} {l : LS} {d : List Dir}
    {m : List GoString} (hc : collected w l = .ok (d, m)) (hT : l.T = true) :
    nonRecursiveEntries w l = .ok (timeOrdered m d) := by
  unfold nonRecursiveEntries
  rw [hc]
  simp only [arrange_eq, hT, if_true]

/-! ## The claims on failures and on the time-ordering step -/

/-- C16, counterexample: with `A` not set, a directory read whose hidden child
`.git` has metadata that cannot be retrieved does not fail: `Info()` is never
asked of a skipped child, `display` is called and `a.txt` is listed. -/
theorem hidden_child_failure_ignored :
    hiddenBrokenEntries.map DirEntry.name = [str ".git", str "a.txt"] ∧
    (∃ c ∈ hiddenBrokenEntries, c.name = str ".git" ∧ c.info = .error (.errno 2)) ∧
    nonRecursiveEntries (listingWorld hiddenBrokenEntries utc) (lsOn false false false)
      = .ok [⟨str "d/a.txt", mkInfo "a.txt" false 1704103200 utc⟩] ∧
    nonRecursiveListing (fun _ d => (d.flatMap (fun x => x.Path ++ str "\n"), .ok ()))
      (listingWorld hiddenBrokenEntries utc) (lsOn false false false)
      = (str "d/a.txt\n", .ok ()) :=
  ⟨by decide, ⟨⟨str ".git", .error (.errno 2)⟩, by simp [hiddenBrokenEntries], rfl, rfl⟩,
    by decide, by decide⟩

/-- C16, amended: if the directory read fails, or with `A` set the stat of `.`
or of `..` fails, or the metadata of a child that is not skipped as hidden
cannot be retrieved, then `nonRecursiveListing` returns the first such error
unchanged and writes nothing, whatever `display` is: `display` is not called. -/
theorem nonRecursive_first_failure (display : LS → List Dir → Run) (w : World) (l : LS)
    (e : Error) (h : FirstFailure w l e) :
    nonRecursiveEntries w l = .error e ∧ nonRecursiveListing display w l = ([], .error e) := by
  have hc := collected_first_failure h
  have hn : nonRecursiveEntries w l = .error e := by
    unfold nonRecursiveEntries
    rw [hc]
  refine ⟨hn, ?_⟩
  unfold nonRecursiveListing
  rw [hn]

theorem nonRecursive_first_failure_witness :
    nonRecursiveEntries (listingWorld infoFailEntries utc) (lsOn false false false)
      = .error (.errno 2) ∧
    nonRecursiveListing (fun _ d => (d.flatMap (fun x => x.Path ++ str "\n"), .ok ()))
      (listingWorld infoFailEntries utc) (lsOn false false false) = ([], .error (.errno 2)) :=
  nonRecursive_first_failure _ (listingWorld infoFailEntries utc) (lsOn false false false)
    (.errno 2)
    (FirstFailure.info [mkEntry (mkInfo "a.txt" false 1704103200 utc)]
      [mkEntry (mkInfo "c.txt" false 1704103200 utc)] ⟨str "b.txt", .error (.errno 2)⟩
      rfl (fun h => absurd h (by decide))
      (by
        intro x hx
        rw [List.mem_singleton] at hx
        subst hx
        exact Or.inr ⟨by decide, _, rfl⟩)
      (by decide) rfl)

/-- C18: with `A` not set and `T` set, when the rendered modification times of
the collected entries are pairwise distinct, the slice handed to `display` is a
permutation of the collected entries whose rendered times are strictly
decreasing in the byte-wise order of strings. -/
theorem timeOrdered_by_rendered_text (w : World) (l : LS) (d : List Dir) (m : List GoString)
    (hc : collected w l = .ok (d, m)) (hA : l.A = false) (hT : l.T = true)
    (hnd : (d.map renderedTime).Nodup) :
    nonRecursiveEntries w l = .ok (timeOrdered m d) ∧
    (timeOrdered m d).Perm d ∧
    ((timeOrdered m d).map renderedTime).Pairwise (fun a b => strLess b a = true) := by
  have hm : m = d.map renderedTime := by
    have := (collected_split hc).1
    rw [this]
    simp [realChildren, hA]
  refine ⟨nonRecursiveEntries_of_collected_T hc hT, ?_, ?_⟩
  · rw [hm]; exact timeOrdered_perm_of_nodup hnd
  · rw [hm, timeOrdered_map_of_nodup hnd]
    exact sortReverse_strict _ hnd

theorem timeOrdered_by_rendered_text_witness :
    collected (listingWorld fallBackEntries newYork) (lsOn false false true)
      = .ok (fallBackDirs, fallBackDirs.map renderedTime) ∧
    (fallBackDirs.map renderedTime).Nodup ∧
    (nonRecursiveEntries (listingWorld fallBackEntries newYork) (lsOn false false true)
        = .ok (timeOrdered (fallBackDirs.map renderedTime) fallBackDirs) ∧
      (timeOrdered (fallBackDirs.map renderedTime) fallBackDirs).Perm fallBackDirs ∧
      ((timeOrdered (fallBackDirs.map renderedTime) fallBackDirs).map renderedTime).Pairwise
        (fun a b => strLess b a = true)) :=
  ⟨by decide, by decide,
    timeOrdered_by_rendered_text (listingWorld fallBackEntries newYork) (lsOn false false true)
      fallBackDirs (fallBackDirs.map renderedTime) (by decide) rfl rfl (by decide)⟩

/-- C20: with `T` set, the modification-time strings scanned are those of the
real children (the collected entries after the pseudo-entries); an entry `e`
occurs in the slice handed to `display` as many times as it occurs in the
collected slice `d` multiplied by the number of real children whose rendered
time equals that of `e`, hence exactly that number when the entries of `d` are
distinct; every entry of the output, a pseudo-entry included, shares its
rendered time with a real child; and the output length is the sum over the real
children `c` of the number of entries of `d` with the rendered time of `c`. -/
theorem timeOrdered_multiplicity (w : World) (l : LS) (d : List Dir) (m : List GoString)
    (hc : collected w l = .ok (d, m)) (hT : l.T = true) :
    nonRecursiveEntries w l = .ok (timeOrdered m d) ∧
    m = (realChildren l d).map renderedTime ∧
    d = pseudoEntries l d ++ realChildren l d ∧
    (pseudoEntries l d).map Dir.Path = (if l.A then dotFiles else []) ∧
    (∀ e, (timeOrdered m d).count e
      = d.count e * (realChildren l d).countP (fun c => decide (renderedTime c = renderedTime e))) ∧
    (d.Nodup → ∀ e ∈ d, (timeOrdered m d).count e
      = (realChildren l d).countP (fun c => decide (renderedTime c = renderedTime e))) ∧
    (∀ e ∈ timeOrdered m d, ∃ c ∈ realChildren l d, renderedTime c = renderedTime e) ∧
    (timeOrdered m d).length
      = ((realChildren l d).map (fun c =>
          (d.filter (fun x => decide (renderedTime x = renderedTime c))).length)).sum := by
  obtain ⟨hm, hd, hps⟩ := collected_split hc
  have hcount : ∀ e, (timeOrdered m d).count e
      = d.count e * (realChildren l d).countP
          (fun c => decide (renderedTime c = renderedTime e)) := by
    intro e
    rw [count_timeOrdered, hm, countP_map_renderedTime]
  refine ⟨nonRecursiveEntries_of_collected_T hc hT, hm, hd, hps, hcount, ?_, ?_, ?_⟩
  · intro hnd e he
    rw [hcount e, List.count_eq_one_of_mem hnd he, Nat.one_mul]
  · intro e he
    have := time_mem_of_mem_timeOrdered he
    rw [hm] at this
    obtain ⟨c, hc1, hc2⟩ := List.mem_map.mp this
    exact ⟨c, hc1, hc2⟩
  · rw [length_timeOrdered]
    conv_lhs => rw [hm]
    rw [List.map_map]
    rfl

theorem timeOrdered_multiplicity_witness :
    collected (listingWorld sameTimeEntries utc) (lsOn true false true)
      = .ok (sameTimeDirs, [str "2024-01-01 10:00:00 +0000 UTC",
          str "2024-01-01 10:00:00 +0000 UTC"]) ∧
    nonRecursiveEntries (listingWorld sameTimeEntries utc) (lsOn true false true)
      = .ok (timeOrdered [str "2024-01-01 10:00:00 +0000 UTC",
          str "2024-01-01 10:00:00 +0000 UTC"] sameTimeDirs) ∧
    timeOrdered [str "2024-01-01 10:00:00 +0000 UTC", str "2024-01-01 10:00:00 +0000 UTC"]
        sameTimeDirs
      = [⟨str "d/a.txt", mkInfo "a.txt" false 1704103200 utc⟩,
         ⟨str "d/b.txt", mkInfo "b.txt" false 1704103200 utc⟩,
         ⟨str "d/a.txt", mkInfo "a.txt" false 1704103200 utc⟩,
         ⟨str "d/b.txt", mkInfo "b.txt" false 1704103200 utc⟩] :=
  ⟨by decide,
    (timeOrdered_multiplicity (listingWorld sameTimeEntries utc) (lsOn true false true)
      sameTimeDirs [str "2024-01-01 10:00:00 +0000 UTC", str "2024-01-01 10:00:00 +0000 UTC"]
      (by decide) rfl).1,
    by decide⟩

end Lse
